import Mathlib

/-!
# Verification of the SRT-to-timeline core of `LyricMaker.jsx`

This file is a shallow embedding of the parsing and timeline-construction
core of the repository's single source file (an ExtendScript/JavaScript
program): the timecode decoder `parseTime`, the subtitle parser `parseSRT`,
and the keyframe-event builder inside `btnGenerate.onClick`.

Modelling conventions:
* JavaScript strings are modelled as `List Char` (the top-level entry points
  take `String` and work on `String.toList`).
* JavaScript numbers are modelled as `JSNum := Option ℚ`: `some q` is the
  finite value `q` taken exactly (decimal literals are exact rationals here;
  binary floating-point rounding is not modelled), and `none` models a
  non-finite value (`NaN`; the `Infinity` literal of `parseFloat` is also
  collapsed into `none`).  Arithmetic propagates `none`, and every ordering
  comparison involving `none` is `false`, as for `NaN` in JavaScript.
* The JavaScript regular expressions used by the source are fixed patterns;
  they are modelled by direct character-list matchers below.  The character
  class `\s` is modelled by the ASCII whitespace characters (space, tab,
  line feed, carriage return, vertical tab, form feed); the additional
  Unicode space characters matched by JavaScript's `\s` are not modelled.
-/

set_option maxRecDepth 8192

/-- A JavaScript number: `some q` is a finite value, `none` a non-finite
one (`NaN`).  All values arising in the program are decimal, so exact
rationals are used. -/
abbrev JSNum : Type := Option ℚ

/-- JavaScript `+` on numbers (`NaN` propagates). -/
def jsAdd : JSNum → JSNum → JSNum
  | some a, some b => some (a + b)
  | _, _ => none

/-- JavaScript `*` on numbers (`NaN` propagates). -/
def jsMul : JSNum → JSNum → JSNum
  | some a, some b => some (a * b)
  | _, _ => none

/-- JavaScript `-` on numbers (`NaN` propagates). -/
def jsSub : JSNum → JSNum → JSNum
  | some a, some b => some (a - b)
  | _, _ => none

/-- JavaScript `>` on numbers: any comparison with `NaN` is `false`. -/
def jsGt : JSNum → JSNum → Bool
  | some a, some b => decide (b < a)
  | _, _ => false

/-- The JavaScript whitespace class `\s`, restricted to its ASCII members
(space, tab, line feed, carriage return, vertical tab, form feed). -/
def isSpaceC (c : Char) : Bool :=
  c = ' ' || c = '\t' || c = '\n' || c = '\r' || c = Char.ofNat 11 || c = Char.ofNat 12

/-- Numeric value of a digit string, most significant digit first
(the integer part of JavaScript's decimal parse). -/
def digitsToNat (ds : List Char) : ℕ :=
  ds.foldl (fun a c => 10 * a + (c.toNat - 48)) 0

/-- The optional exponent part of JavaScript's `parseFloat` grammar, after a
sign has been consumed: `digits`, scaling `v` by `10 ^ n` (or its inverse for
the `neg` case).  An empty digit run leaves `v` unchanged (the exponent
marker is then not part of the parsed prefix). -/
def parseFloatExpDigits (neg : Bool) (v : ℚ) (cs : List Char) : ℚ :=
  let ds := cs.takeWhile Char.isDigit
  if ds = [] then v
  else if neg then v / 10 ^ digitsToNat ds else v * 10 ^ digitsToNat ds

/-- The optional signed exponent of JavaScript's `parseFloat` grammar
(`e`/`E` already consumed). -/
def parseFloatExpSigned (v : ℚ) (cs : List Char) : ℚ :=
  match cs with
  | [] => v
  | c :: rest =>
    if c = '+' then parseFloatExpDigits false v rest
    else if c = '-' then parseFloatExpDigits true v rest
    else parseFloatExpDigits false v (c :: rest)

/-- The optional exponent marker of JavaScript's `parseFloat` grammar. -/
def parseFloatExp (v : ℚ) (cs : List Char) : ℚ :=
  match cs with
  | [] => v
  | c :: rest => if c = 'e' || c = 'E' then parseFloatExpSigned v rest else v

/-- The unsigned decimal literal of JavaScript's `parseFloat`:
`digits ['.' digits] [exp]` or `'.' digits [exp]`, longest-prefix; trailing
garbage is ignored, and no digits at all yields `NaN` (`none`). -/
def parseFloatUnsigned (cs : List Char) : Option ℚ :=
  let ip := cs.takeWhile Char.isDigit
  let r1 := cs.dropWhile Char.isDigit
  if ip = [] then
    match r1 with
    | '.' :: r2 =>
      let fp := r2.takeWhile Char.isDigit
      if fp = [] then none
      else some (parseFloatExp ((digitsToNat fp : ℚ) / 10 ^ fp.length) (r2.dropWhile Char.isDigit))
    | _ => none
  else
    match r1 with
    | '.' :: r2 =>
      let fp := r2.takeWhile Char.isDigit
      some (parseFloatExp ((digitsToNat ip : ℚ) + (digitsToNat fp : ℚ) / 10 ^ fp.length)
        (r2.dropWhile Char.isDigit))
    | _ => some (parseFloatExp (digitsToNat ip : ℚ) r1)

/-- JavaScript's global `parseFloat`: skip leading whitespace, parse an
optional sign and the longest decimal-literal prefix; no parseable prefix
gives `NaN` (`none`).  (The `Infinity` literal is not modelled separately:
it also yields `none`, see the module doc-string.) -/
def parseFloat (cs0 : List Char) : Option ℚ :=
  let cs := cs0.dropWhile isSpaceC
  match cs with
  | [] => none
  | c :: rest =>
    if c = '+' then parseFloatUnsigned rest
    else if c = '-' then (parseFloatUnsigned rest).map Neg.neg
    else parseFloatUnsigned (c :: rest)

/-- `parseFloat` applied to a possibly-undefined value: JavaScript coerces
`undefined` to the string `"undefined"`, which parses to `NaN`. -/
def parseFloatOpt : Option (List Char) → Option ℚ
  | none => none
  | some cs => parseFloat cs

/-- JavaScript `s.replace(target, repl)` with one-character string arguments:
replaces only the first occurrence. -/
def replaceFirst (target repl : Char) : List Char → List Char
  | [] => []
  | c :: cs => if c = target then repl :: cs else c :: replaceFirst target repl cs

/-- JavaScript `s.split(sep)` for a one-character separator: splits at every
occurrence, keeping empty pieces. -/
def splitOnC (sep : Char) : List Char → List (List Char)
  | [] => [[]]
  | c :: cs => if c = sep then [] :: splitOnC sep cs else (splitOnC sep cs).modifyHead (c :: ·)

/-- `parseTime` of `LyricMaker.jsx`: converts an SRT timecode
(`HH:MM:SS,mmm`) to seconds.  A falsy (empty) argument returns `0`; the
first `,` is replaced by `.`, the string is split on `:`, and the three
parts are fed to `parseFloat` (a missing part is `undefined`, hence `NaN`). -/
def parseTime (cs : List Char) : JSNum :=
  if cs = [] then some 0
  else
    let t := replaceFirst ',' '.' cs
    let parts := splitOnC ':' t
    let h := parseFloatOpt parts[0]?
    let m := parseFloatOpt parts[1]?
    let s := parseFloatOpt parts[2]?
    jsAdd (jsAdd (jsMul h (some 3600)) (jsMul m (some 60))) s

/-- One subtitle entry, as produced by `parseSRT` (the numeric index line of
a block is discarded). -/
structure Cue where
  start : JSNum
  end_ : JSNum
  text : List Char
deriving DecidableEq, Repr, Inhabited

/-- The regex fragment `\d{2}:\d{2}:\d{2}[,.]\d{3}` anchored at the head of
the list; on success returns the remaining characters. -/
def matchTimecode : List Char → Option (List Char)
  | a :: b :: c1 :: d :: e :: c2 :: f :: g :: sp :: h :: i :: j :: rest =>
    if a.isDigit && b.isDigit && c1 = ':' && d.isDigit && e.isDigit && c2 = ':'
        && f.isDigit && g.isDigit && (sp = ',' || sp = '.') && h.isDigit && i.isDigit && j.isDigit
    then some rest else none
  | _ => none

/-- The regex fragment `\s-->\s` followed by a second timecode, anchored at
the head of the list. -/
def matchArrowTail (r : List Char) : Bool :=
  match r with
  | w1 :: x :: y :: z :: w2 :: r2 =>
    isSpaceC w1 && x = '-' && y = '-' && z = '>' && isSpaceC w2 && (matchTimecode r2).isSome
  | _ => false

/-- The full timing-line pattern
`\d{2}:\d{2}:\d{2}[,.]\d{3}\s-->\s\d{2}:\d{2}:\d{2}[,.]\d{3}` anchored at
the head of the list. -/
def matchTimingHere (cs : List Char) : Bool :=
  match matchTimecode cs with
  | some r => matchArrowTail r
  | none => false

/-- `line.match(/\d{2}:\d{2}:\d{2}[,.]\d{3}\s-->\s\d{2}:\d{2}:\d{2}[,.]\d{3}/)`
is truthy: the (unanchored) pattern matches at some position of the line. -/
def isTimingLine (cs : List Char) : Bool :=
  cs.tails.any matchTimingHere

/-- `line.match(/^\d+$/)` is truthy: the line is a nonempty run of digits. -/
def isIndexLine (cs : List Char) : Bool :=
  !cs.isEmpty && cs.all Char.isDigit

/-- JavaScript `line.split('-->')`: split on the three-character arrow
token, non-overlapping, left to right. -/
def splitOnArrow : List Char → List (List Char)
  | [] => [[]]
  | [c] => [[c]]
  | [c1, c2] => [[c1, c2]]
  | c1 :: c2 :: c3 :: cs =>
    if c1 = '-' && c2 = '-' && c3 = '>' then [] :: splitOnArrow cs
    else (splitOnArrow (c2 :: c3 :: cs)).modifyHead (c1 :: ·)

/-- JavaScript `s.replace(/\s/g, '')`: remove every whitespace character. -/
def removeSpaces (cs : List Char) : List Char :=
  cs.filter (fun c => !isSpaceC c)

/-- Remove a trailing run of whitespace (the `\s+$` half of the source's
trim regex). -/
def dropTrailing : List Char → List Char
  | [] => []
  | c :: cs => if dropTrailing cs = [] && isSpaceC c then [] else c :: dropTrailing cs

/-- JavaScript `line.replace(/^\s+|\s+$/g, '')`: trim leading and trailing
whitespace. -/
def trimJS (cs : List Char) : List Char :=
  dropTrailing (cs.dropWhile isSpaceC)

/-- One pass of `rawData.replace(/\r\n/g, "\n")`: global, non-overlapping,
left to right. -/
def replaceCRLF : List Char → List Char
  | [] => []
  | [c] => [c]
  | c1 :: c2 :: cs =>
    if c1 = '\r' && c2 = '\n' then '\n' :: replaceCRLF cs
    else c1 :: replaceCRLF (c2 :: cs)

/-- `rawData.replace(/\r/g, "\n")`: every remaining carriage return becomes
a line feed. -/
def replaceCR (cs : List Char) : List Char :=
  cs.map (fun c => if c = '\r' then '\n' else c)

/-- Pushing the cue in progress (if any) onto the output, as done at a blank
line and at end of input. -/
def finalize (cur : Option Cue) (acc : List Cue) : List Cue :=
  match cur with
  | some c => acc ++ [c]
  | none => acc

/-- The line-scanning loop of `parseSRT`: classify each trimmed line as
index line (only when no cue is in progress), timing line, blank line, or
text line, threading the cue in progress and the output list.
The timing branch reads `times[0]` and `times[1]` from the arrow split;
the pattern guarantees both exist (JavaScript would throw otherwise), so the
model totalises them with `getD`. -/
def parseLines : List (List Char) → Option Cue → List Cue → List Cue
  | [], cur, acc => finalize cur acc
  | l :: ls, cur, acc =>
    let line := trimJS l
    if isIndexLine line && cur.isNone then
      parseLines ls cur acc
    else if isTimingLine line then
      let times := splitOnArrow line
      parseLines ls (some { start := parseTime (removeSpaces (times.getD 0 []))
                          , end_ := parseTime (removeSpaces (times.getD 1 []))
                          , text := [] }) acc
    else if line.isEmpty then
      match cur with
      | some c => parseLines ls none (acc ++ [c])
      | none => parseLines ls none acc
    else
      match cur with
      | some c =>
        parseLines ls (some { c with text := c.text ++ (if c.text.isEmpty then [] else ['\r']) ++ line }) acc
      | none => parseLines ls cur acc

/-- `parseSRT` of `LyricMaker.jsx`: normalize line endings, split into
lines, and run the scanning loop with no cue in progress. -/
def parseSRT (raw : String) : List Cue :=
  parseLines (splitOnC '\n' (replaceCR (replaceCRLF raw.toList))) none []

/-- One keyframe written by the generation loop: a time and the text set
there (the empty text is the "clear" keyframe). -/
structure Event where
  time : JSNum
  text : List Char
deriving DecidableEq, Repr

/-- The `99999` fallback used for `nextStart` at the last cue. -/
def sentinel : ℚ := 99999

/-- The keyframe-generation loop of `btnGenerate.onClick` (single-layer
mode), as the sequence of `setValueAtTime` calls it makes: for each cue, a
keyframe with its text at `start`, and a clear keyframe at `end` whenever
`nextStart - end > frameDuration`, where `nextStart` is the next cue's
`start`, or `99999` at the last cue. -/
def build : List Cue → ℚ → List Event
  | [], _ => []
  | s :: rest, g =>
    let nextStart : JSNum :=
      match rest with
      | [] => some sentinel
      | t :: _ => t.start
    ⟨s.start, s.text⟩ ::
      ((if jsGt (jsSub nextStart s.end_) (some g) then [⟨s.end_, []⟩] else []) ++ build rest g)

/-- The error taxonomy named by the specification (§7).  The source code
only ever guards the `rawSRT.length < 10` alert (`emptyInput`); the other
two constructors exist so that the specification's claims about them can be
stated against the code. -/
inductive SpecError where
  | emptyInput
  | noCuesFound
  | malformedTimecode
deriving DecidableEq, Repr

/-- The validation-and-generation skeleton of `btnGenerate.onClick` in
single-layer mode: the only input check in the source is
`rawSRT.length < 10` (alert and return); otherwise the parsed cues are fed
to the keyframe loop and the full event sequence is produced. -/
def btnGenerate_onClick (raw : String) (frameDuration : ℚ) : Except SpecError (List Event) :=
  if raw.length < 10 then .error .emptyInput
  else .ok (build (parseSRT raw) frameDuration)

example : isTimingLine "00:00:01,000 --> 00:00:02,000".toList = true := by decide
example : isTimingLine "00:00:01,000-->00:00:02,000".toList = false := by decide
example : isTimingLine "00:00:01,000  -->  00:00:02,000".toList = false := by decide

/-! ## Rendering helpers used to state the claims -/

/-- A two-digit decimal rendering (`HH`, `MM`, `SS`). -/
def pad2 (n : ℕ) : List Char := [Nat.digitChar (n / 10), Nat.digitChar (n % 10)]

/-- A three-digit decimal rendering (`mmm`). -/
def pad3 (n : ℕ) : List Char :=
  [Nat.digitChar (n / 100), Nat.digitChar (n / 10 % 10), Nat.digitChar (n % 10)]

/-- The timecode token `HH:MM:SS<sep>mmm`. -/
def mkTimecodeL (sep : Char) (h m s f : ℕ) : List Char :=
  pad2 h ++ (':' :: (pad2 m ++ (':' :: (pad2 s ++ (sep :: pad3 f)))))

/-- A full timing line `HH:MM:SS<sep1>mmm<w1>--><w2>HH:MM:SS<sep2>mmm`. -/
def mkTimingL (sep1 sep2 w1 w2 : Char) (a b c d e f g h : ℕ) : List Char :=
  mkTimecodeL sep1 a b c d ++ w1 :: '-' :: '-' :: '>' :: w2 :: mkTimecodeL sep2 e f g h

/-- The seconds value a well-formed timecode denotes. -/
def tcVal (h m s f : ℕ) : ℚ := h * 3600 + m * 60 + (s + f / 1000)

/-- Text lines joined the way `parseSRT` joins them: with a single
carriage return between consecutive lines. -/
def joinCR : List (List Char) → List Char
  | [] => []
  | t :: ts => t ++ ts.flatMap (fun x => '\r' :: x)

/-- Lines joined into a raw document with a line feed between consecutive
lines (no trailing line feed). -/
def joinLines : List (List Char) → List Char
  | [] => []
  | l :: ls => l ++ ls.flatMap (fun x => '\n' :: x)

/-! ## Character facts -/

theorem digitChar_isDigit {d : ℕ} (h : d < 10) : (Nat.digitChar d).isDigit = true := by
  interval_cases d <;> decide

theorem digitChar_toNat {d : ℕ} (h : d < 10) : (Nat.digitChar d).toNat - 48 = d := by
  interval_cases d <;> decide

theorem digitChar_not_space {d : ℕ} (h : d < 10) : isSpaceC (Nat.digitChar d) = false := by
  interval_cases d <;> decide

theorem digitChar_ne {d : ℕ} (h : d < 10) (c : Char) (hc : c.isDigit = false) :
    Nat.digitChar d ≠ c := by
  intro e
  rw [← e, digitChar_isDigit h] at hc
  cases hc

theorem isDigit_not_space {c : Char} (h : c.isDigit = true) : isSpaceC c = false := by
  revert h
  simp only [Char.isDigit, isSpaceC]
  intro h
  rcases Bool.and_eq_true .. |>.mp h with ⟨h1, h2⟩
  simp only [decide_eq_true_eq] at h1 h2
  simp only [Bool.or_eq_false_iff, decide_eq_false_iff_not]
  refine ⟨⟨⟨⟨⟨?_, ?_⟩, ?_⟩, ?_⟩, ?_⟩, ?_⟩ <;>
    · intro e
      subst e
      simp_all

/-! ## List-scanning lemmas -/

theorem takeWhile_append_all {p : Char → Bool} {xs : List Char} (ys : List Char)
    (h : ∀ c ∈ xs, p c = true) : (xs ++ ys).takeWhile p = xs ++ ys.takeWhile p := by
  induction xs with
  | nil => simp
  | cons a l ih =>
    simp only [List.cons_append, List.takeWhile_cons, h a (by simp)]
    simp [ih (fun c hc => h c (by simp [hc]))]

theorem dropWhile_append_all {p : Char → Bool} {xs : List Char} (ys : List Char)
    (h : ∀ c ∈ xs, p c = true) : (xs ++ ys).dropWhile p = ys.dropWhile p := by
  induction xs with
  | nil => simp
  | cons a l ih =>
    simp only [List.cons_append, List.dropWhile_cons, h a (by simp)]
    exact ih (fun c hc => h c (by simp [hc]))

theorem takeWhile_all {p : Char → Bool} {xs : List Char} (h : ∀ c ∈ xs, p c = true) :
    xs.takeWhile p = xs := by
  have := @takeWhile_append_all p xs [] h
  simpa using this

theorem dropWhile_all {p : Char → Bool} {xs : List Char} (h : ∀ c ∈ xs, p c = true) :
    xs.dropWhile p = [] := by
  have := @dropWhile_append_all p xs [] h
  simpa using this

theorem filter_not_space {xs : List Char} (h : ∀ c ∈ xs, isSpaceC c = false) :
    removeSpaces xs = xs := by
  rw [removeSpaces, List.filter_eq_self]
  intro c hc
  simp [h c hc]

theorem filter_all_space {xs : List Char} (h : ∀ c ∈ xs, isSpaceC c = true) :
    removeSpaces xs = [] := by
  rw [removeSpaces, List.filter_eq_nil_iff]
  intro c hc
  simp [h c hc]

theorem removeSpaces_append (xs ys : List Char) :
    removeSpaces (xs ++ ys) = removeSpaces xs ++ removeSpaces ys := by
  simp [removeSpaces]

theorem replaceFirst_not_mem {t r : Char} {xs : List Char} (h : t ∉ xs) :
    replaceFirst t r xs = xs := by
  induction xs with
  | nil => rfl
  | cons a l ih =>
    have ha : a ≠ t := by rintro rfl; simp at h
    simp only [replaceFirst, if_neg ha]
    rw [ih (fun hm => h (by simp [hm]))]

theorem replaceFirst_append {t r : Char} {xs : List Char} (ys : List Char) (h : t ∉ xs) :
    replaceFirst t r (xs ++ t :: ys) = xs ++ r :: ys := by
  induction xs with
  | nil => simp [replaceFirst]
  | cons a l ih =>
    have ha : a ≠ t := by rintro rfl; simp at h
    simp only [List.cons_append, replaceFirst, if_neg ha, List.append_eq]
    rw [ih (fun hm => h (by simp [hm]))]

theorem splitOnC_not_mem {sep : Char} {xs : List Char} (h : sep ∉ xs) :
    splitOnC sep xs = [xs] := by
  induction xs with
  | nil => rfl
  | cons a l ih =>
    have ha : a ≠ sep := by rintro rfl; simp at h
    simp only [splitOnC, if_neg ha]
    rw [ih (fun hm => h (by simp [hm]))]
    rfl

theorem splitOnC_append {sep : Char} {xs : List Char} (ys : List Char) (h : sep ∉ xs) :
    splitOnC sep (xs ++ sep :: ys) = xs :: splitOnC sep ys := by
  induction xs with
  | nil => simp [splitOnC]
  | cons a l ih =>
    have ha : a ≠ sep := by rintro rfl; simp at h
    simp only [List.cons_append, splitOnC, if_neg ha, List.append_eq]
    rw [ih (fun hm => h (by simp [hm]))]
    rfl


theorem splitOnArrow_ne_nil (xs : List Char) : splitOnArrow xs ≠ [] := by
  induction xs using splitOnArrow.induct with
  | case1 => simp [splitOnArrow]
  | case2 => simp [splitOnArrow]
  | case3 => simp [splitOnArrow]
  | case4 c1 c2 c3 cs hc ih =>
    simp [splitOnArrow, hc]
  | case5 c1 c2 c3 cs hc ih =>
    simp only [splitOnArrow, if_neg hc]
    cases hh : splitOnArrow (c2 :: c3 :: cs) with
    | nil => exact absurd hh ih
    | cons a t => simp

theorem splitOnArrow_no_dash {xs : List Char} (h : '-' ∉ xs) : splitOnArrow xs = [xs] := by
  induction xs using splitOnArrow.induct with
  | case1 => rfl
  | case2 => rfl
  | case3 => rfl
  | case4 c1 c2 c3 cs hc ih =>
    exfalso
    have h1 : c1 = '-' := by
      have := ((Bool.and_eq_true ..).mp ((Bool.and_eq_true ..).mp hc).1).1
      simpa using this
    exact h (by simp [h1])
  | case5 c1 c2 c3 cs hc ih =>
    have hc1 : '-' ∉ c2 :: c3 :: cs := fun hm => h (by simp [hm])
    simp only [splitOnArrow, if_neg hc]
    rw [ih hc1]
    rfl

theorem splitOnArrow_append {xs : List Char} (ys : List Char) (h : '-' ∉ xs) :
    splitOnArrow (xs ++ ys) =
      (xs ++ (splitOnArrow ys).headD []) :: (splitOnArrow ys).tail := by
  induction xs with
  | nil =>
    simp only [List.nil_append]
    cases hh : splitOnArrow ys with
    | nil => exact absurd hh (splitOnArrow_ne_nil ys)
    | cons a t => simp
  | cons c xs ih =>
    have hc : c ≠ '-' := by rintro rfl; simp at h
    have ih2 := ih (fun hm => h (by simp [hm]))
    cases hshape : xs ++ ys with
    | nil =>
      rcases List.append_eq_nil.mp hshape with ⟨rfl, rfl⟩
      simp [splitOnArrow]
    | cons d1 t1 =>
      cases t1 with
      | nil =>
        rcases xs with _ | ⟨x1, xs'⟩
        · simp only [List.nil_append] at hshape
          subst hshape
          simp [splitOnArrow]
        · simp only [List.cons_append] at hshape
          have hx1 : x1 = d1 := by simpa using congrArg (fun l => l.headD ' ') hshape
          have hrest : xs' ++ ys = [] := by simpa using congrArg List.tail hshape
          rcases List.append_eq_nil.mp hrest with ⟨rfl, rfl⟩
          subst hx1
          simp [splitOnArrow]
      | cons d2 t2 =>
        show splitOnArrow (c :: (xs ++ ys)) = _
        rw [hshape]
        simp only [splitOnArrow]
        rw [if_neg (by simp [hc])]
        rw [← hshape, ih2]
        rfl

/-! ## Trim lemmas -/

theorem dropTrailing_length_le (l : List Char) : (dropTrailing l).length ≤ l.length := by
  induction l with
  | nil => simp [dropTrailing]
  | cons c cs ih =>
    simp only [dropTrailing]
    split
    · simp
    · simpa using ih

theorem dropTrailing_append_space {c : Char} (hc : isSpaceC c = true) (l : List Char) :
    dropTrailing (l ++ [c]) = dropTrailing l := by
  induction l with
  | nil => simp [dropTrailing, hc]
  | cons a cs ih =>
    simp only [List.cons_append, dropTrailing, List.append_eq, ih]

theorem dropTrailing_eq_self {l : List Char}
    (h : ∀ c, l.getLast? = some c → isSpaceC c = false) : dropTrailing l = l := by
  induction l with
  | nil => rfl
  | cons a cs ih =>
    cases cs with
    | nil =>
      have := h a (by simp)
      simp [dropTrailing, this]
    | cons b cs' =>
      have hrec : dropTrailing (b :: cs') = b :: cs' := by
        apply ih
        intro c hc
        exact h c (by rwa [List.getLast?_cons_cons])
      have hstep : dropTrailing (a :: b :: cs') =
          if (decide (dropTrailing (b :: cs') = []) && isSpaceC a) = true then []
          else a :: dropTrailing (b :: cs') := rfl
      rw [hstep, hrec]
      simp

theorem trimJS_eq_self {l : List Char}
    (h1 : ∀ c, l.head? = some c → isSpaceC c = false)
    (h2 : ∀ c, l.getLast? = some c → isSpaceC c = false) : trimJS l = l := by
  rw [trimJS]
  have hd : l.dropWhile isSpaceC = l := by
    cases l with
    | nil => rfl
    | cons a cs => simp [List.dropWhile_cons, h1 a (by simp)]
  rw [hd]
  exact dropTrailing_eq_self h2

theorem trimJS_all_space {l : List Char} (h : ∀ c ∈ l, isSpaceC c = true) :
    trimJS l = [] := by
  rw [trimJS, dropWhile_all h]
  rfl

theorem dropWhile_eq_self_of_trim {t : List Char} (h : trimJS t = t) :
    t.dropWhile isSpaceC = t := by
  have hsub : (t.dropWhile isSpaceC).Sublist t := List.dropWhile_sublist isSpaceC
  have hlen1 : (dropTrailing (t.dropWhile isSpaceC)).length ≤ (t.dropWhile isSpaceC).length :=
    dropTrailing_length_le _
  have hlen2 : (t.dropWhile isSpaceC).length ≤ t.length := hsub.length_le
  have hlen : t.length ≤ (t.dropWhile isSpaceC).length := by
    rw [trimJS] at h
    calc t.length = (dropTrailing (t.dropWhile isSpaceC)).length := by rw [h]
    _ ≤ _ := hlen1
  exact hsub.eq_of_length (Nat.le_antisymm hlen2 hlen)

theorem dropTrailing_eq_self_of_trim {t : List Char} (h : trimJS t = t) :
    dropTrailing t = t := by
  have hd := dropWhile_eq_self_of_trim h
  rw [trimJS, hd] at h
  exact h

theorem head_not_space_of_trim {t : List Char} {a : Char} {r : List Char}
    (h : trimJS t = t) (ht : t = a :: r) : isSpaceC a = false := by
  subst ht
  have hd := dropWhile_eq_self_of_trim h
  by_contra hs
  rw [List.dropWhile_cons, if_pos (by simpa using hs)] at hd
  have := congrArg List.length hd
  have hle : (r.dropWhile isSpaceC).length ≤ r.length :=
    (List.dropWhile_sublist isSpaceC).length_le
  simp only [List.length_cons] at this
  omega

theorem trimJS_pad {t : List Char} (h : trimJS t = t) :
    trimJS (' ' :: (t ++ [' '])) = t := by
  rw [trimJS, List.dropWhile_cons, if_pos (by decide)]
  cases ht : t with
  | nil => simp [dropTrailing]
  | cons a r =>
    have ha : isSpaceC a = false := head_not_space_of_trim h ht
    rw [← ht]
    have hd : (t ++ [' ']).dropWhile isSpaceC = t ++ [' '] := by
      rw [ht, List.cons_append, List.dropWhile_cons, if_neg (by simp [ha])]
    rw [hd, dropTrailing_append_space (by decide), dropTrailing_eq_self_of_trim h]

/-! ## `parseFloat` on digit strings -/

theorem isDigit_ne {c t : Char} (h : c.isDigit = true) (ht : t.isDigit = false) : c ≠ t := by
  intro e
  subst e
  rw [h] at ht
  cases ht

theorem digitsToNat_pad2 {n : ℕ} (h : n < 100) : digitsToNat (pad2 n) = n := by
  have h1 : n / 10 < 10 := by omega
  have h2 : n % 10 < 10 := by omega
  simp only [pad2, digitsToNat, List.foldl_cons, List.foldl_nil]
  rw [digitChar_toNat h1, digitChar_toNat h2]
  omega

theorem digitsToNat_pad3 {n : ℕ} (h : n < 1000) : digitsToNat (pad3 n) = n := by
  have h1 : n / 100 < 10 := by omega
  have h2 : n / 10 % 10 < 10 := by omega
  have h3 : n % 10 < 10 := by omega
  simp only [pad3, digitsToNat, List.foldl_cons, List.foldl_nil]
  rw [digitChar_toNat h1, digitChar_toNat h2, digitChar_toNat h3]
  omega

theorem pad2_digits {n : ℕ} (h : n < 100) : ∀ c ∈ pad2 n, c.isDigit = true := by
  intro c hc
  rcases (by simpa [pad2] using hc) with rfl | rfl
  · exact digitChar_isDigit (by omega)
  · exact digitChar_isDigit (by omega)

theorem pad3_digits {n : ℕ} (h : n < 1000) : ∀ c ∈ pad3 n, c.isDigit = true := by
  intro c hc
  rcases (by simpa [pad3] using hc) with rfl | rfl | rfl
  · exact digitChar_isDigit (by omega)
  · exact digitChar_isDigit (by omega)
  · exact digitChar_isDigit (by omega)

theorem parseFloatExp_nil (v : ℚ) : parseFloatExp v [] = v := rfl

theorem parseFloat_digits {ds : List Char} (hne : ds ≠ [])
    (h : ∀ c ∈ ds, c.isDigit = true) : parseFloat ds = some ((digitsToNat ds : ℚ)) := by
  obtain ⟨d, ds', rfl⟩ := List.exists_cons_of_ne_nil hne
  have hd : d.isDigit = true := h d (by simp)
  have hds : (d :: ds').dropWhile isSpaceC = d :: ds' := by
    rw [List.dropWhile_cons, if_neg (by simp [isDigit_not_space hd])]
  have hplus : d ≠ '+' := isDigit_ne hd (by decide)
  have hminus : d ≠ '-' := isDigit_ne hd (by decide)
  simp only [parseFloat, hds, if_neg hplus, if_neg hminus]
  simp only [parseFloatUnsigned, takeWhile_all h, dropWhile_all h]
  rw [if_neg (by simp)]
  exact congrArg some (parseFloatExp_nil _)

theorem parseFloat_digits_dot {ds fs : List Char} (hne : ds ≠ [])
    (h : ∀ c ∈ ds, c.isDigit = true) (hf : ∀ c ∈ fs, c.isDigit = true) :
    parseFloat (ds ++ '.' :: fs) =
      some ((digitsToNat ds : ℚ) + (digitsToNat fs : ℚ) / 10 ^ fs.length) := by
  obtain ⟨d, ds', rfl⟩ := List.exists_cons_of_ne_nil hne
  have hd : d.isDigit = true := h d (by simp)
  have hcons : (d :: ds') ++ '.' :: fs = d :: (ds' ++ '.' :: fs) := by simp
  have hds : (d :: (ds' ++ '.' :: fs)).dropWhile isSpaceC = d :: (ds' ++ '.' :: fs) := by
    rw [List.dropWhile_cons, if_neg (by simp [isDigit_not_space hd])]
  have hplus : d ≠ '+' := isDigit_ne hd (by decide)
  have hminus : d ≠ '-' := isDigit_ne hd (by decide)
  rw [hcons]
  simp only [parseFloat, hds, if_neg hplus, if_neg hminus]
  have htake : (d :: (ds' ++ '.' :: fs)).takeWhile Char.isDigit = d :: ds' := by
    rw [show d :: (ds' ++ '.' :: fs) = (d :: ds') ++ '.' :: fs by simp]
    rw [takeWhile_append_all _ h]
    simp [List.takeWhile_cons]
  have hdrop : (d :: (ds' ++ '.' :: fs)).dropWhile Char.isDigit = '.' :: fs := by
    rw [show d :: (ds' ++ '.' :: fs) = (d :: ds') ++ '.' :: fs by simp]
    rw [dropWhile_append_all _ h]
    simp [List.dropWhile_cons]
  simp only [parseFloatUnsigned, htake, hdrop]
  rw [if_neg (by simp)]
  simp only [takeWhile_all hf, dropWhile_all hf]
  exact congrArg some (parseFloatExp_nil _)

/-! ## `parseTime` on well-formed timecodes -/

theorem comma_not_mem_front {h m s : ℕ} (hh : h < 100) (hm : m < 100) (hs : s < 100) :
    ',' ∉ pad2 h ++ ':' :: (pad2 m ++ ':' :: pad2 s) := by
  intro hmem
  simp only [List.mem_append, List.mem_cons] at hmem
  rcases hmem with h1 | h1 | h1 | h1 | h1
  · exact absurd (pad2_digits hh _ h1) (by decide)
  · exact absurd h1 (by decide)
  · exact absurd (pad2_digits hm _ h1) (by decide)
  · exact absurd h1 (by decide)
  · exact absurd (pad2_digits hs _ h1) (by decide)

theorem colon_not_mem_pad2 {n : ℕ} (h : n < 100) : ':' ∉ pad2 n := by
  intro hmem
  exact absurd (pad2_digits h _ hmem) (by decide)

theorem colon_not_mem_tail {s f : ℕ} (hs : s < 100) (hf : f < 1000) :
    ':' ∉ pad2 s ++ '.' :: pad3 f := by
  intro hmem
  simp only [List.mem_append, List.mem_cons] at hmem
  rcases hmem with h1 | h1 | h1
  · exact absurd (pad2_digits hs _ h1) (by decide)
  · exact absurd h1 (by decide)
  · exact absurd (pad3_digits hf _ h1) (by decide)

theorem mem_mkTimecode {c sep : Char} {h m s f : ℕ} (hh : h < 100) (hm : m < 100)
    (hs : s < 100) (hf : f < 1000) (hmem : c ∈ mkTimecodeL sep h m s f) :
    c.isDigit = true ∨ c = ':' ∨ c = sep := by
  rw [mkTimecodeL] at hmem
  rcases List.mem_append.mp hmem with hA | hB
  · exact Or.inl (pad2_digits hh _ hA)
  rcases List.mem_cons.mp hB with rfl | hB
  · exact Or.inr (Or.inl rfl)
  rcases List.mem_append.mp hB with hA | hB
  · exact Or.inl (pad2_digits hm _ hA)
  rcases List.mem_cons.mp hB with rfl | hB
  · exact Or.inr (Or.inl rfl)
  rcases List.mem_append.mp hB with hA | hB
  · exact Or.inl (pad2_digits hs _ hA)
  rcases List.mem_cons.mp hB with rfl | hB
  · exact Or.inr (Or.inr rfl)
  · exact Or.inl (pad3_digits hf _ hB)

theorem parseTime_mkTimecode {sep : Char} (hsep : sep = ',' ∨ sep = '.')
    {h m s f : ℕ} (hh : h < 100) (hm : m < 100) (hs : s < 100) (hf : f < 1000) :
    parseTime (mkTimecodeL sep h m s f) = some (tcVal h m s f) := by
  have hne : mkTimecodeL sep h m s f ≠ [] := by
    simp [mkTimecodeL, pad2]
  have hrepl : replaceFirst ',' '.' (mkTimecodeL sep h m s f) =
      pad2 h ++ ':' :: (pad2 m ++ ':' :: (pad2 s ++ '.' :: pad3 f)) := by
    rcases hsep with rfl | rfl
    · have e : mkTimecodeL ',' h m s f =
          (pad2 h ++ ':' :: (pad2 m ++ ':' :: pad2 s)) ++ ',' :: pad3 f := by
        simp [mkTimecodeL]
      rw [e, replaceFirst_append _ (comma_not_mem_front hh hm hs)]
      simp
    · rw [replaceFirst_not_mem]
      · simp [mkTimecodeL]
      · intro hmem
        rcases mem_mkTimecode hh hm hs hf hmem with h1 | h1 | h1 <;>
          exact absurd h1 (by decide)
  have hsplit : splitOnC ':' (pad2 h ++ ':' :: (pad2 m ++ ':' :: (pad2 s ++ '.' :: pad3 f))) =
      [pad2 h, pad2 m, pad2 s ++ '.' :: pad3 f] := by
    rw [splitOnC_append _ (colon_not_mem_pad2 hh),
        splitOnC_append _ (colon_not_mem_pad2 hm),
        splitOnC_not_mem (colon_not_mem_tail hs hf)]
  rw [parseTime, if_neg hne]
  simp only [hrepl, hsplit]
  have e1 : parseFloatOpt [pad2 h, pad2 m, pad2 s ++ '.' :: pad3 f][0]? = some ((h : ℚ)) := by
    simp only [List.getElem?_cons_zero, parseFloatOpt]
    rw [parseFloat_digits (by simp [pad2]) (pad2_digits hh), digitsToNat_pad2 hh]
  have e2 : parseFloatOpt [pad2 h, pad2 m, pad2 s ++ '.' :: pad3 f][1]? = some ((m : ℚ)) := by
    simp only [List.getElem?_cons_succ, List.getElem?_cons_zero, parseFloatOpt]
    rw [parseFloat_digits (by simp [pad2]) (pad2_digits hm), digitsToNat_pad2 hm]
  have e3 : parseFloatOpt [pad2 h, pad2 m, pad2 s ++ '.' :: pad3 f][2]? =
      some ((s : ℚ) + (f : ℚ) / 1000) := by
    simp only [List.getElem?_cons_succ, List.getElem?_cons_zero, parseFloatOpt]
    rw [parseFloat_digits_dot (by simp [pad2]) (pad2_digits hs) (pad3_digits hf),
        digitsToNat_pad2 hs, digitsToNat_pad3 hf]
    norm_num [pad3]
  rw [e1, e2, e3]
  simp only [jsMul, jsAdd, tcVal]

/-! ## Timing-line classification lemmas -/

theorem matchTimecode_mkTimecode {sep : Char} (hsep : sep = ',' ∨ sep = '.')
    {h m s f : ℕ} (hh : h < 100) (hm : m < 100) (hs : s < 100) (hf : f < 1000)
    (rest : List Char) :
    matchTimecode (mkTimecodeL sep h m s f ++ rest) = some rest := by
  have e : mkTimecodeL sep h m s f ++ rest =
      Nat.digitChar (h / 10) :: Nat.digitChar (h % 10) :: ':' ::
      Nat.digitChar (m / 10) :: Nat.digitChar (m % 10) :: ':' ::
      Nat.digitChar (s / 10) :: Nat.digitChar (s % 10) :: sep ::
      Nat.digitChar (f / 100) :: Nat.digitChar (f / 10 % 10) :: Nat.digitChar (f % 10) :: rest := by
    simp [mkTimecodeL, pad2, pad3]
  rw [e, matchTimecode]
  have d1 := digitChar_isDigit (show h / 10 < 10 by omega)
  have d2 := digitChar_isDigit (show h % 10 < 10 by omega)
  have d3 := digitChar_isDigit (show m / 10 < 10 by omega)
  have d4 := digitChar_isDigit (show m % 10 < 10 by omega)
  have d5 := digitChar_isDigit (show s / 10 < 10 by omega)
  have d6 := digitChar_isDigit (show s % 10 < 10 by omega)
  have d7 := digitChar_isDigit (show f / 100 < 10 by omega)
  have d8 := digitChar_isDigit (show f / 10 % 10 < 10 by omega)
  have d9 := digitChar_isDigit (show f % 10 < 10 by omega)
  have hsp : (decide (sep = ',') || decide (sep = '.')) = true := by
    rcases hsep with rfl | rfl <;> simp
  simp [d1, d2, d3, d4, d5, d6, d7, d8, d9, hsp]

theorem matchTimingHere_mkTiming {sep1 sep2 w1 w2 : Char}
    (hs1 : sep1 = ',' ∨ sep1 = '.') (hs2 : sep2 = ',' ∨ sep2 = '.')
    (hw1 : isSpaceC w1 = true) (hw2 : isSpaceC w2 = true)
    {a b c d e f g h : ℕ} (h1 : a < 100) (h2 : b < 100) (h3 : c < 100) (h4 : d < 1000)
    (h5 : e < 100) (h6 : f < 100) (h7 : g < 100) (h8 : h < 1000) :
    matchTimingHere (mkTimingL sep1 sep2 w1 w2 a b c d e f g h) = true := by
  rw [mkTimingL, matchTimingHere]
  rw [matchTimecode_mkTimecode hs1 h1 h2 h3 h4]
  have etc2 : matchTimecode (mkTimecodeL sep2 e f g h) = some [] := by
    have := matchTimecode_mkTimecode hs2 h5 h6 h7 h8 []
    simpa using this
  simp [matchArrowTail, hw1, hw2, etc2]

theorem isTimingLine_mkTiming {sep1 sep2 w1 w2 : Char}
    (hs1 : sep1 = ',' ∨ sep1 = '.') (hs2 : sep2 = ',' ∨ sep2 = '.')
    (hw1 : isSpaceC w1 = true) (hw2 : isSpaceC w2 = true)
    {a b c d e f g h : ℕ} (h1 : a < 100) (h2 : b < 100) (h3 : c < 100) (h4 : d < 1000)
    (h5 : e < 100) (h6 : f < 100) (h7 : g < 100) (h8 : h < 1000) :
    isTimingLine (mkTimingL sep1 sep2 w1 w2 a b c d e f g h) = true := by
  rw [isTimingLine, List.any_eq_true]
  refine ⟨mkTimingL sep1 sep2 w1 w2 a b c d e f g h, ?_, ?_⟩
  · rw [List.mem_tails]
  · exact matchTimingHere_mkTiming hs1 hs2 hw1 hw2 h1 h2 h3 h4 h5 h6 h7 h8

theorem matchTimecode_colon {t r : List Char} (h : matchTimecode t = some r) : ':' ∈ t := by
  unfold matchTimecode at h
  split at h
  · rename_i a b c1 d e c2 f g sp hh i j rest
    split at h
    · rename_i hcond
      simp only [Bool.and_eq_true, decide_eq_true_eq] at hcond
      have : c1 = ':' := hcond.1.1.1.1.1.1.1.1.1.2
      subst this
      simp
    · cases h
  · cases h

theorem isTimingLine_colon {l : List Char} (h : isTimingLine l = true) : ':' ∈ l := by
  rw [isTimingLine, List.any_eq_true] at h
  obtain ⟨t, hmem, hmatch⟩ := h
  rw [List.mem_tails] at hmem
  rw [matchTimingHere] at hmatch
  have hcolon : ':' ∈ t := by
    cases hmc : matchTimecode t with
    | none => rw [hmc] at hmatch; cases hmatch
    | some r => exact matchTimecode_colon hmc
  exact hmem.subset hcolon

theorem isIndexLine_of_timing {l : List Char} (h : isTimingLine l = true) :
    isIndexLine l = false := by
  have hcolon := isTimingLine_colon h
  rw [isIndexLine]
  have : l.all Char.isDigit = false := by
    rw [List.all_eq_false]
    exact ⟨':', hcolon, by decide⟩
  simp [this]

theorem isTimingLine_of_digits {l : List Char} (h : ∀ c ∈ l, c.isDigit = true) :
    isTimingLine l = false := by
  by_contra hc
  have hcolon := isTimingLine_colon (by simpa using hc)
  exact absurd (h ':' hcolon) (by decide)

theorem isTimingLine_nil : isTimingLine [] = false := by decide

/-! ## Parser step lemmas -/

theorem parseLines_nil (cur : Option Cue) (acc : List Cue) :
    parseLines [] cur acc = finalize cur acc := rfl

theorem parseLines_blank {l : List Char} (h : trimJS l = []) (ls : List (List Char))
    (cur : Option Cue) (acc : List Cue) :
    parseLines (l :: ls) cur acc = parseLines ls none (finalize cur acc) := by
  simp only [parseLines, h]
  rw [if_neg (by simp [isIndexLine])]
  rw [if_neg (by simp [isTimingLine_nil])]
  rw [if_pos (by simp)]
  cases cur <;> rfl

theorem parseLines_timing {l : List Char} (h : isTimingLine (trimJS l) = true)
    (ls : List (List Char)) (cur : Option Cue) (acc : List Cue) :
    parseLines (l :: ls) cur acc =
      parseLines ls
        (some { start := parseTime (removeSpaces ((splitOnArrow (trimJS l)).getD 0 []))
              , end_ := parseTime (removeSpaces ((splitOnArrow (trimJS l)).getD 1 []))
              , text := [] }) acc := by
  simp only [parseLines]
  rw [if_neg (by simp [isIndexLine_of_timing h])]
  rw [if_pos h]

theorem parseLines_text {l : List Char} (h1 : isTimingLine (trimJS l) = false)
    (h2 : trimJS l ≠ []) (ls : List (List Char)) (c : Cue) (acc : List Cue) :
    parseLines (l :: ls) (some c) acc =
      parseLines ls
        (some { c with
                text := c.text ++ (if c.text.isEmpty then [] else ['\r']) ++ trimJS l }) acc := by
  simp only [parseLines]
  rw [if_neg (by simp)]
  rw [if_neg (by simp [h1])]
  rw [if_neg (by simp [h2])]

theorem parseLines_skip {l : List Char} (h1 : isTimingLine (trimJS l) = false)
    (ls : List (List Char)) (acc : List Cue) :
    parseLines (l :: ls) none acc = parseLines ls none acc := by
  simp only [parseLines]
  by_cases hidx : isIndexLine (trimJS l) = true
  · rw [if_pos (by simp [hidx])]
  · rw [if_neg (by simp [hidx])]
    rw [if_neg (by simp [h1])]
    by_cases hb : (trimJS l).isEmpty
    · rw [if_pos hb]
    · rw [if_neg hb]

/-! ## Processing a full timing line -/

theorem head?_mem_char {l : List Char} {c : Char} (h : l.head? = some c) : c ∈ l := by
  cases l with
  | nil => cases h
  | cons a t =>
    simp only [List.head?_cons, Option.some.injEq] at h
    simp [h]

theorem getLast?_mem_char {l : List Char} {c : Char} (h : l.getLast? = some c) : c ∈ l := by
  have hm : c ∈ l.getLast? := by simp [h]
  obtain ⟨hne, rfl⟩ := List.mem_getLast?_eq_getLast hm
  exact List.getLast_mem hne

theorem trimJS_digits {d : List Char} (hd : ∀ c ∈ d, c.isDigit = true) : trimJS d = d := by
  apply trimJS_eq_self
  · intro c hc
    exact isDigit_not_space (hd c (head?_mem_char hc))
  · intro c hc
    exact isDigit_not_space (hd c (getLast?_mem_char hc))

theorem not_space_mem_mkTimecode {c sep : Char} (hsep : sep = ',' ∨ sep = '.')
    {h m s f : ℕ} (hh : h < 100) (hm : m < 100) (hs : s < 100) (hf : f < 1000)
    (hmem : c ∈ mkTimecodeL sep h m s f) : isSpaceC c = false := by
  rcases mem_mkTimecode hh hm hs hf hmem with h1 | rfl | rfl
  · exact isDigit_not_space h1
  · decide
  · rcases hsep with rfl | rfl <;> decide

theorem dash_not_mem_mkTimecode {sep : Char} (hsep : sep = ',' ∨ sep = '.')
    {h m s f : ℕ} (hh : h < 100) (hm : m < 100) (hs : s < 100) (hf : f < 1000) :
    '-' ∉ mkTimecodeL sep h m s f := by
  intro hmem
  rcases mem_mkTimecode hh hm hs hf hmem with h1 | h1 | h1
  · exact absurd h1 (by decide)
  · exact absurd h1 (by decide)
  · rcases hsep with rfl | rfl <;> simp_all

theorem space_ne_dash {w : Char} (hw : isSpaceC w = true) : w ≠ '-' := by
  rintro rfl
  cases hw

theorem getLast?_mkTimecode {sep : Char} {h m s f : ℕ} :
    (mkTimecodeL sep h m s f).getLast? = some (Nat.digitChar (f % 10)) := by
  have e : mkTimecodeL sep h m s f =
      Nat.digitChar (h / 10) :: Nat.digitChar (h % 10) :: ':' ::
      Nat.digitChar (m / 10) :: Nat.digitChar (m % 10) :: ':' ::
      Nat.digitChar (s / 10) :: Nat.digitChar (s % 10) :: sep ::
      Nat.digitChar (f / 100) :: Nat.digitChar (f / 10 % 10) :: [Nat.digitChar (f % 10)] := by
    simp [mkTimecodeL, pad2, pad3]
  rw [e]
  simp [List.getLast?_cons_cons]

theorem trimJS_mkTiming {sep1 sep2 w1 w2 : Char} {a b c d e f g h : ℕ} :
    trimJS (mkTimingL sep1 sep2 w1 w2 a b c d e f g h) =
      mkTimingL sep1 sep2 w1 w2 a b c d e f g h := by
  apply trimJS_eq_self
  · intro x hx
    have : x = Nat.digitChar (a / 10) := by
      rw [mkTimingL, mkTimecodeL, pad2] at hx
      simp only [List.cons_append, List.head?_cons, Option.some.injEq] at hx
      exact hx.symm
    subst this
    by_cases h10 : a / 10 < 10
    · exact digitChar_not_space h10
    · have : a / 10 ≥ 10 := by omega
      rcases Nat.lt_or_ge (a / 10) 16 with hlt | hge
      · interval_cases (a / 10) <;> decide
      · have e16 : Nat.digitChar (a / 10) = '*' := by
          rw [Nat.digitChar]
          repeat rw [if_neg (by omega)]
        rw [e16]
        decide
  · intro x hx
    rw [mkTimingL] at hx
    rw [List.getLast?_append_of_ne_nil _ (by simp)] at hx
    have e : w1 :: '-' :: '-' :: '>' :: w2 :: mkTimecodeL sep2 e f g h =
        (w1 :: '-' :: '-' :: '>' :: [w2]) ++ mkTimecodeL sep2 e f g h := by simp
    rw [e, List.getLast?_append_of_ne_nil _ (by simp [mkTimecodeL, pad2])] at hx
    rw [getLast?_mkTimecode] at hx
    cases hx
    by_cases h10 : h % 10 < 10
    · exact digitChar_not_space h10
    · omega

theorem splitOnArrow_mkTiming {sep1 sep2 w1 w2 : Char}
    (hs1 : sep1 = ',' ∨ sep1 = '.') (hs2 : sep2 = ',' ∨ sep2 = '.')
    (hw1 : isSpaceC w1 = true) (hw2 : isSpaceC w2 = true)
    {a b c d e f g h : ℕ} (h1 : a < 100) (h2 : b < 100) (h3 : c < 100) (h4 : d < 1000)
    (h5 : e < 100) (h6 : f < 100) (h7 : g < 100) (h8 : h < 1000) :
    splitOnArrow (mkTimingL sep1 sep2 w1 w2 a b c d e f g h) =
      [mkTimecodeL sep1 a b c d ++ [w1], w2 :: mkTimecodeL sep2 e f g h] := by
  have e1 : mkTimingL sep1 sep2 w1 w2 a b c d e f g h =
      (mkTimecodeL sep1 a b c d ++ [w1]) ++ ('-' :: '-' :: '>' :: (w2 :: mkTimecodeL sep2 e f g h)) := by
    simp [mkTimingL]
  have hnd1 : '-' ∉ mkTimecodeL sep1 a b c d ++ [w1] := by
    intro hmem
    rcases List.mem_append.mp hmem with hA | hB
    · exact dash_not_mem_mkTimecode hs1 h1 h2 h3 h4 hA
    · have hw : '-' = w1 := by simpa using hB
      exact space_ne_dash hw1 hw.symm
  have hnd2 : '-' ∉ w2 :: mkTimecodeL sep2 e f g h := by
    intro hmem
    rcases List.mem_cons.mp hmem with hB | hA
    · exact space_ne_dash hw2 hB.symm
    · exact dash_not_mem_mkTimecode hs2 h5 h6 h7 h8 hA
  rw [e1, splitOnArrow_append _ hnd1]
  have e2 : splitOnArrow ('-' :: '-' :: '>' :: (w2 :: mkTimecodeL sep2 e f g h)) =
      [] :: splitOnArrow (w2 :: mkTimecodeL sep2 e f g h) := by
    rw [splitOnArrow]
    rw [if_pos (by simp)]
  rw [e2, splitOnArrow_no_dash hnd2]
  simp

theorem parseLines_mkTiming {sep1 sep2 w1 w2 : Char}
    (hs1 : sep1 = ',' ∨ sep1 = '.') (hs2 : sep2 = ',' ∨ sep2 = '.')
    (hw1 : isSpaceC w1 = true) (hw2 : isSpaceC w2 = true)
    {a b c d e f g h : ℕ} (h1 : a < 100) (h2 : b < 100) (h3 : c < 100) (h4 : d < 1000)
    (h5 : e < 100) (h6 : f < 100) (h7 : g < 100) (h8 : h < 1000)
    (ls : List (List Char)) (cur : Option Cue) (acc : List Cue) :
    parseLines (mkTimingL sep1 sep2 w1 w2 a b c d e f g h :: ls) cur acc =
      parseLines ls (some { start := some (tcVal a b c d)
                          , end_ := some (tcVal e f g h)
                          , text := [] }) acc := by
  have htrim := @trimJS_mkTiming sep1 sep2 w1 w2 a b c d e f g h
  rw [parseLines_timing (by
    rw [htrim]
    exact isTimingLine_mkTiming hs1 hs2 hw1 hw2 h1 h2 h3 h4 h5 h6 h7 h8)]
  rw [htrim, splitOnArrow_mkTiming hs1 hs2 hw1 hw2 h1 h2 h3 h4 h5 h6 h7 h8]
  have r1 : removeSpaces (mkTimecodeL sep1 a b c d ++ [w1]) = mkTimecodeL sep1 a b c d := by
    rw [removeSpaces_append,
        filter_not_space (fun x hx => not_space_mem_mkTimecode hs1 h1 h2 h3 h4 hx)]
    have : removeSpaces [w1] = [] := filter_all_space (by simpa using hw1)
    simp [this]
  have r2 : removeSpaces (w2 :: mkTimecodeL sep2 e f g h) = mkTimecodeL sep2 e f g h := by
    have e2 : w2 :: mkTimecodeL sep2 e f g h = [w2] ++ mkTimecodeL sep2 e f g h := by simp
    rw [e2, removeSpaces_append,
        filter_not_space (fun x hx => not_space_mem_mkTimecode hs2 h5 h6 h7 h8 hx)]
    have : removeSpaces [w2] = [] := filter_all_space (by simpa using hw2)
    simp [this]
  simp only [List.getD_cons_zero, List.getD_cons_succ]
  rw [r1, r2, parseTime_mkTimecode hs1 h1 h2 h3 h4, parseTime_mkTimecode hs2 h5 h6 h7 h8]

/-! ## Text lines and document assembly -/

/-- A well-formed text line of a block: nonempty, already trimmed, not a
timing line, and free of line-ending characters (so it survives the
line-splitting intact). -/
def wfTextLine (t : List Char) : Prop :=
  t ≠ [] ∧ trimJS t = t ∧ isTimingLine t = false ∧ '\n' ∉ t ∧ '\r' ∉ t

/-- The text accumulator of the scanning loop, folded over a run of text
lines. -/
def joinTexts (tx : List Char) (ts : List (List Char)) : List Char :=
  ts.foldl (fun a t => a ++ (if a.isEmpty then [] else ['\r']) ++ t) tx

theorem joinTexts_nil (tx : List Char) : joinTexts tx [] = tx := rfl

theorem joinTexts_ne_nil {tx : List Char} (h : tx ≠ []) (ts : List (List Char)) :
    joinTexts tx ts = tx ++ ts.flatMap (fun x => '\r' :: x) := by
  induction ts generalizing tx with
  | nil => simp [joinTexts]
  | cons t ts ih =>
    have hstep : joinTexts tx (t :: ts) = joinTexts (tx ++ ['\r'] ++ t) ts := by
      simp only [joinTexts, List.foldl_cons]
      congr 1
      rw [if_neg (by simpa using h)]
    rw [hstep, ih (by simp)]
    simp

theorem joinTexts_joinCR {ts : List (List Char)} (h : ∀ t ∈ ts, t ≠ []) :
    joinTexts [] ts = joinCR ts := by
  cases ts with
  | nil => rfl
  | cons t ts =>
    have hstep : joinTexts [] (t :: ts) = joinTexts t ts := by
      simp [joinTexts]
    rw [hstep, joinTexts_ne_nil (h t (by simp)) ts, joinCR]

theorem parseLines_texts {ts : List (List Char)} (h : ∀ t ∈ ts, wfTextLine t)
    (ls : List (List Char)) (c : Cue) (acc : List Cue) :
    parseLines (ts ++ ls) (some c) acc =
      parseLines ls (some { c with text := joinTexts c.text ts }) acc := by
  induction ts generalizing c with
  | nil => simp [joinTexts]
  | cons t ts ih =>
    obtain ⟨hne, htrim, htim, -, -⟩ := h t (by simp)
    rw [List.cons_append,
        parseLines_text (by rwa [htrim]) (by rwa [htrim]) _ c acc,
        ih (fun x hx => h x (by simp [hx]))]
    congr 2
    simp only [joinTexts, List.foldl_cons]
    congr 1
    rcases ht : c.text with _ | _ <;> simp [htrim]

theorem replaceCRLF_no_cr {l : List Char} (h : '\r' ∉ l) : replaceCRLF l = l := by
  induction l using replaceCRLF.induct with
  | case1 => rfl
  | case2 => rfl
  | case3 c1 c2 cs hc ih =>
    exfalso
    have h1 : c1 = '\r' := by simpa using ((Bool.and_eq_true ..).mp hc).1
    exact h (by simp [h1])
  | case4 c1 c2 cs hc ih =>
    simp only [replaceCRLF, if_neg hc]
    rw [ih (fun hm => h (by simp at hm ⊢; tauto))]

theorem replaceCR_no_cr {l : List Char} (h : '\r' ∉ l) : replaceCR l = l := by
  induction l with
  | nil => rfl
  | cons a t ih =>
    have ha : a ≠ '\r' := by rintro rfl; simp at h
    simp only [replaceCR, List.map_cons, if_neg ha]
    have := ih (fun hm => h (by simp [hm]))
    simpa [replaceCR] using this

theorem splitOnC_joinLines {L : List (List Char)} (hne : L ≠ [])
    (h : ∀ l ∈ L, '\n' ∉ l) : splitOnC '\n' (joinLines L) = L := by
  induction L with
  | nil => exact absurd rfl hne
  | cons l ls ih =>
    cases ls with
    | nil =>
      rw [joinLines]
      simp only [List.flatMap_nil, List.append_nil]
      exact splitOnC_not_mem (h l (by simp))
    | cons l2 ls' =>
      have e : joinLines (l :: l2 :: ls') = l ++ '\n' :: joinLines (l2 :: ls') := by
        simp [joinLines]
      rw [e, splitOnC_append _ (h l (by simp))]
      rw [ih (by simp) (fun x hx => h x (by simp [hx]))]

theorem mem_joinLines {c : Char} {L : List (List Char)} (hc : c ∈ joinLines L) :
    c = '\n' ∨ ∃ l ∈ L, c ∈ l := by
  induction L with
  | nil => cases hc
  | cons l ls ih =>
    cases ls with
    | nil =>
      simp only [joinLines, List.flatMap_nil, List.append_nil] at hc
      exact Or.inr ⟨l, by simp, hc⟩
    | cons l2 ls' =>
      have e : joinLines (l :: l2 :: ls') = l ++ '\n' :: joinLines (l2 :: ls') := by
        simp [joinLines]
      rw [e] at hc
      rcases List.mem_append.mp hc with h1 | h2
      · exact Or.inr ⟨l, by simp, h1⟩
      · rcases List.mem_cons.mp h2 with rfl | h3
        · exact Or.inl rfl
        · rcases ih h3 with h4 | ⟨x, hx1, hx2⟩
          · exact Or.inl h4
          · exact Or.inr ⟨x, by simp [hx1], hx2⟩

theorem parseSRT_joinLines {L : List (List Char)} (hne : L ≠ [])
    (h : ∀ l ∈ L, '\n' ∉ l ∧ '\r' ∉ l) :
    parseSRT (String.mk (joinLines L)) = parseLines L none [] := by
  have hcr : '\r' ∉ joinLines L := by
    intro hm
    rcases mem_joinLines hm with h1 | ⟨l, hl, hcl⟩
    · cases h1
    · exact (h l hl).2 hcl
  rw [parseSRT]
  have htl : (String.mk (joinLines L)).toList = joinLines L := rfl
  rw [htl, replaceCRLF_no_cr hcr, replaceCR_no_cr hcr,
      splitOnC_joinLines hne (fun l hl => (h l hl).1)]

/-! ## Builder lemmas -/

/-- `nextStart` as the loop body computes it for index `i`:
`subs[i+1].start` when `i < subs.length - 1`, else the `99999` sentinel. -/
def nextStartOf (subs : List Cue) (i : ℕ) : JSNum :=
  if i < subs.length - 1 then (subs.getD (i + 1) default).start else some sentinel

/-- The keyframes the loop body emits for cue `i`. -/
def cueEventsAt (subs : List Cue) (g : ℚ) (i : ℕ) : List Event :=
  ⟨(subs.getD i default).start, (subs.getD i default).text⟩ ::
    (if jsGt (jsSub (nextStartOf subs i) (subs.getD i default).end_) (some g)
     then [⟨(subs.getD i default).end_, []⟩] else [])

theorem nextStartOf_cons (s : Cue) (rest : List Cue) (i : ℕ) :
    nextStartOf (s :: rest) (i + 1) = nextStartOf rest i := by
  rw [nextStartOf, nextStartOf]
  by_cases hlt : i < rest.length - 1
  · rw [if_pos (by simp; omega), if_pos hlt]
    rfl
  · rw [if_neg (by simp; omega), if_neg hlt]

theorem cueEventsAt_cons (s : Cue) (rest : List Cue) (g : ℚ) (i : ℕ) :
    cueEventsAt (s :: rest) g (i + 1) = cueEventsAt rest g i := by
  rw [cueEventsAt, cueEventsAt, nextStartOf_cons]
  rfl

/-- `nextStart` at the head of the remaining cue list. -/
def nextStartHead : List Cue → JSNum
  | [] => some sentinel
  | t :: _ => t.start

theorem build_cons (s : Cue) (rest : List Cue) (g : ℚ) :
    build (s :: rest) g =
      ⟨s.start, s.text⟩ ::
        ((if jsGt (jsSub (nextStartHead rest) s.end_) (some g) then [⟨s.end_, []⟩] else []) ++
          build rest g) := by
  cases rest <;> rfl

theorem nextStartOf_zero (s : Cue) (rest : List Cue) :
    nextStartOf (s :: rest) 0 = nextStartHead rest := by
  cases rest with
  | nil => rw [nextStartOf, if_neg (by simp)]; rfl
  | cons t r =>
    rw [nextStartOf, if_pos (by simp)]
    rfl

theorem cueEventsAt_zero (s : Cue) (rest : List Cue) (g : ℚ) :
    cueEventsAt (s :: rest) g 0 =
      ⟨s.start, s.text⟩ ::
        (if jsGt (jsSub (nextStartHead rest) s.end_) (some g) then [⟨s.end_, []⟩] else []) := by
  rw [cueEventsAt, nextStartOf_zero]
  rfl

theorem build_eq_flatMap (subs : List Cue) (g : ℚ) :
    build subs g = (List.range subs.length).flatMap (cueEventsAt subs g) := by
  induction subs with
  | nil => rfl
  | cons s rest ih =>
    have hflat : (List.range (s :: rest).length).flatMap (cueEventsAt (s :: rest) g) =
        cueEventsAt (s :: rest) g 0 ++
          (List.range rest.length).flatMap (cueEventsAt rest g) := by
      rw [List.length_cons, List.range_succ_eq_map, List.flatMap_cons]
      congr 1
      rw [List.flatMap_map]
      apply List.flatMap_congr
      intro i hi
      exact cueEventsAt_cons s rest g i
    rw [hflat, ← ih, build_cons, cueEventsAt_zero]
    simp

/-! ## Well-formed blocks -/

theorem isIndexLine_digits {d : List Char} (h : isIndexLine d = true) :
    d ≠ [] ∧ ∀ c ∈ d, c.isDigit = true := by
  rw [isIndexLine, Bool.and_eq_true] at h
  refine ⟨by simpa using h.1, ?_⟩
  intro c hc
  exact (List.all_eq_true.mp h.2) c hc

theorem parseLines_index {d : List Char} (h : isIndexLine d = true)
    (ls : List (List Char)) (acc : List Cue) :
    parseLines (d :: ls) none acc = parseLines ls none acc := by
  obtain ⟨-, hdig⟩ := isIndexLine_digits h
  have htrim : trimJS d = d := trimJS_digits hdig
  simp only [parseLines, htrim]
  rw [if_pos (by simp [h])]

/-- One well-formed SRT block: an all-digit index line, a timing line
`HH:MM:SS,mmm --> HH:MM:SS,mmm` (single spaces around the arrow), and a run
of text lines. -/
structure Block where
  idx : List Char
  sh : ℕ
  sm : ℕ
  ss : ℕ
  sf : ℕ
  eh : ℕ
  em : ℕ
  es : ℕ
  ef : ℕ
  texts : List (List Char)

/-- The timing line of a block. -/
def timingOf (B : Block) : List Char :=
  mkTimingL ',' ',' ' ' ' ' B.sh B.sm B.ss B.sf B.eh B.em B.es B.ef

/-- Well-formedness of a block: the index line is a nonempty digit run, the
timecode components are in range, and every text line is well formed. -/
def wfBlock (B : Block) : Prop :=
  isIndexLine B.idx = true ∧
  B.sh < 100 ∧ B.sm < 100 ∧ B.ss < 100 ∧ B.sf < 1000 ∧
  B.eh < 100 ∧ B.em < 100 ∧ B.es < 100 ∧ B.ef < 1000 ∧
  ∀ t ∈ B.texts, wfTextLine t

/-- The lines a block contributes to the document, including the
terminating blank line. -/
def blockLines (B : Block) : List (List Char) :=
  B.idx :: timingOf B :: (B.texts ++ [[]])

/-- The lines of a block without the terminating blank line (for a document
that ends abruptly). -/
def blockLinesNoBlank (B : Block) : List (List Char) :=
  B.idx :: timingOf B :: B.texts

/-- The cue a well-formed block denotes. -/
def cueOf (B : Block) : Cue :=
  { start := some (tcVal B.sh B.sm B.ss B.sf)
  , end_ := some (tcVal B.eh B.em B.es B.ef)
  , text := joinCR B.texts }

theorem parseLines_block {B : Block} (hwf : wfBlock B) (ls : List (List Char))
    (acc : List Cue) :
    parseLines (blockLines B ++ ls) none acc = parseLines ls none (acc ++ [cueOf B]) := by
  obtain ⟨hidx, b1, b2, b3, b4, b5, b6, b7, b8, htexts⟩ := hwf
  have e : blockLines B ++ ls = B.idx :: timingOf B :: (B.texts ++ ([] :: ls)) := by
    simp [blockLines]
  rw [e, parseLines_index hidx, timingOf,
      parseLines_mkTiming (Or.inl rfl) (Or.inl rfl) (by decide) (by decide)
        b1 b2 b3 b4 b5 b6 b7 b8,
      parseLines_texts htexts]
  rw [parseLines_blank (show trimJS [] = [] from rfl)]
  have : joinTexts ([] : List Char) B.texts = joinCR B.texts :=
    joinTexts_joinCR (fun t ht => ((htexts t ht).1))
  simp [finalize, this, cueOf]

theorem parseLines_blockNoBlank {B : Block} (hwf : wfBlock B) (acc : List Cue) :
    parseLines (blockLinesNoBlank B) none acc = acc ++ [cueOf B] := by
  obtain ⟨hidx, b1, b2, b3, b4, b5, b6, b7, b8, htexts⟩ := hwf
  have e : blockLinesNoBlank B = B.idx :: timingOf B :: (B.texts ++ []) := by
    simp [blockLinesNoBlank]
  rw [e, parseLines_index hidx, timingOf,
      parseLines_mkTiming (Or.inl rfl) (Or.inl rfl) (by decide) (by decide)
        b1 b2 b3 b4 b5 b6 b7 b8,
      parseLines_texts htexts, parseLines_nil]
  have : joinTexts ([] : List Char) B.texts = joinCR B.texts :=
    joinTexts_joinCR (fun t ht => ((htexts t ht).1))
  simp [finalize, this, cueOf]

theorem parseLines_blocks {bs : List Block} (h : ∀ b ∈ bs, wfBlock b)
    (ls : List (List Char)) (acc : List Cue) :
    parseLines (bs.flatMap blockLines ++ ls) none acc =
      parseLines ls none (acc ++ bs.map cueOf) := by
  induction bs generalizing acc with
  | nil => simp
  | cons b bs ih =>
    rw [List.flatMap_cons, List.append_assoc,
        parseLines_block (h b (by simp)),
        ih (fun x hx => h x (by simp [hx]))]
    simp

theorem no_badchar_timing {B : Block} (hwf : wfBlock B) :
    '\n' ∉ timingOf B ∧ '\r' ∉ timingOf B := by
  obtain ⟨-, b1, b2, b3, b4, b5, b6, b7, b8, -⟩ := hwf
  constructor <;>
  · intro hmem
    rw [timingOf, mkTimingL] at hmem
    rcases List.mem_append.mp hmem with hA | hB
    · rcases mem_mkTimecode b1 b2 b3 b4 hA with h1 | h1 | h1 <;> simp_all
    · simp only [List.mem_cons] at hB
      rcases hB with h1 | h1 | h1 | h1 | h1 | h1
      · exact absurd h1 (by decide)
      · exact absurd h1 (by decide)
      · exact absurd h1 (by decide)
      · exact absurd h1 (by decide)
      · exact absurd h1 (by decide)
      · rcases mem_mkTimecode b5 b6 b7 b8 h1 with h2 | h2 | h2 <;> simp_all

theorem no_badchar_blockLines {B : Block} (hwf : wfBlock B) :
    ∀ l ∈ blockLines B, '\n' ∉ l ∧ '\r' ∉ l := by
  intro l hl
  have hwf2 := hwf
  obtain ⟨hidx, -, -, -, -, -, -, -, -, htexts⟩ := hwf2
  rw [blockLines] at hl
  rcases List.mem_cons.mp hl with rfl | hl
  · obtain ⟨-, hdig⟩ := isIndexLine_digits hidx
    constructor <;> · intro hm; exact absurd (hdig _ hm) (by decide)
  rcases List.mem_cons.mp hl with rfl | hl
  · exact no_badchar_timing hwf
  rcases List.mem_append.mp hl with hl | hl
  · obtain ⟨-, -, -, h4, h5⟩ := htexts l hl
    exact ⟨h4, h5⟩
  · have : l = [] := by simpa using hl
    subst this
    simp

theorem no_badchar_blockLinesNoBlank {B : Block} (hwf : wfBlock B) :
    ∀ l ∈ blockLinesNoBlank B, '\n' ∉ l ∧ '\r' ∉ l := by
  intro l hl
  apply no_badchar_blockLines hwf
  rw [blockLinesNoBlank] at hl
  rw [blockLines]
  rcases List.mem_cons.mp hl with rfl | hl
  · simp
  rcases List.mem_cons.mp hl with rfl | hl
  · simp
  · simp [hl]

/-! ## Claim theorems -/

theorem build_nil (g : ℚ) : build [] g = [] := rfl

theorem jsSub_some_some (a b : ℚ) : jsSub (some a) (some b) = some (a - b) := rfl

theorem jsGt_some_some (a b : ℚ) : jsGt (some a) (some b) = decide (b < a) := rfl

/-- C4: for every cue sequence and positive `minGap`, the event sequence is
the per-cue concatenation of a show event and a clear event
`(cue.end, "")` present exactly when `nextStart - cue.end > minGap` with a
strict comparison (`nextStart` being the next cue's start, or the `99999`
sentinel at the last cue); in particular a gap exactly equal to `minGap`
produces no clear event. -/
theorem C4_clear_iff_strict_gap (subs : List Cue) (g : ℚ) (hg : 0 < g) :
    (build subs g = (List.range subs.length).flatMap (fun i =>
        ⟨(subs.getD i default).start, (subs.getD i default).text⟩ ::
          (if jsGt (jsSub (nextStartOf subs i) (subs.getD i default).end_) (some g)
           then [⟨(subs.getD i default).end_, []⟩] else []))) ∧
    ∀ (s t : Cue) (rest : List Cue) (e : ℚ), s.end_ = some e → t.start = some (e + g) →
      build (s :: t :: rest) g = ⟨s.start, s.text⟩ :: build (t :: rest) g := by
  constructor
  · exact build_eq_flatMap subs g
  · intro s t rest e h1 h2
    rw [build_cons]
    have hns : nextStartHead (t :: rest) = t.start := rfl
    rw [hns, h1, h2, jsSub_some_some]
    have : e + g - e = g := by ring
    rw [this, jsGt_some_some]
    rw [if_neg (by simp)]
    simp

theorem C4_witness :
    0 < (1 / 10 : ℚ) ∧
    build [⟨some 0, some 1, []⟩, ⟨some (1 + 1 / 10), some 2, []⟩] (1 / 10) =
      ⟨some 0, []⟩ :: build [⟨some (1 + 1 / 10), some 2, []⟩] (1 / 10) :=
  ⟨by norm_num,
   (C4_clear_iff_strict_gap [⟨some 0, some 1, []⟩, ⟨some (1 + 1 / 10), some 2, []⟩]
      (1 / 10) (by norm_num)).2 ⟨some 0, some 1, []⟩ ⟨some (1 + 1 / 10), some 2, []⟩ [] 1
      rfl rfl⟩

theorem build_pair_example :
    build [⟨some 1, some 2, "a".toList⟩, ⟨some (5 / 2), some 4, "b".toList⟩] (1 / 10) =
      [⟨some 1, "a".toList⟩, ⟨some 2, []⟩, ⟨some (5 / 2), "b".toList⟩, ⟨some 4, []⟩] := by
  rw [build_cons, build_cons, build_nil]
  have c1 : nextStartHead [(⟨some (5 / 2), some 4, "b".toList⟩ : Cue)] = some (5 / 2) := rfl
  have c2 : nextStartHead ([] : List Cue) = some sentinel := rfl
  rw [c1, c2, jsSub_some_some, jsSub_some_some, jsGt_some_some, jsGt_some_some]
  rw [if_pos (by rw [decide_eq_true_eq]; norm_num),
      if_pos (by rw [decide_eq_true_eq]; rw [sentinel]; norm_num)]
  simp

/-- C2 (as stated) is false on the code: with the sentinel `nextStart = 99999`
at the last cue, `99999 - end` always exceeds any realistic `minGap`, so a
trailing clear event `(end, "")` is also emitted for the last cue; the first
example yields four events, not three. -/
theorem C2_build_examples_counterexample :
    build [⟨some 1, some 2, "a".toList⟩, ⟨some (5 / 2), some 4, "b".toList⟩] (1 / 10) =
      [⟨some 1, "a".toList⟩, ⟨some 2, []⟩, ⟨some (5 / 2), "b".toList⟩, ⟨some 4, []⟩] ∧
    build [⟨some 1, some 2, "a".toList⟩, ⟨some (5 / 2), some 4, "b".toList⟩] (1 / 10) ≠
      [⟨some 1, "a".toList⟩, ⟨some 2, []⟩, ⟨some (5 / 2), "b".toList⟩] := by
  refine ⟨build_pair_example, ?_⟩
  rw [build_pair_example]
  intro hcontra
  have := congrArg List.length hcontra
  simp at this

/-- C2 amended: `build` on `[(1,2,"a"),(2.5,4,"b")]` with `minGap = 0.1`
yields `[(1,"a"),(2,""),(2.5,"b"),(4,"")]` — the three claimed events plus a
trailing clear at the last cue's end, since the sentinel `99999` exceeds it;
on `[(1,2,"a"),(2,3,"b")]` with any positive `minGap < 99996` it yields
`[(1,"a"),(2,"b"),(3,"")]` — no clear between the adjacent cues, plus the
same trailing clear. -/
theorem C2_build_examples_amended (g : ℚ) (h1 : 0 < g) (h2 : g < 99996) :
    build [⟨some 1, some 2, "a".toList⟩, ⟨some (5 / 2), some 4, "b".toList⟩] (1 / 10) =
      [⟨some 1, "a".toList⟩, ⟨some 2, []⟩, ⟨some (5 / 2), "b".toList⟩, ⟨some 4, []⟩] ∧
    build [⟨some 1, some 2, "a".toList⟩, ⟨some 2, some 3, "b".toList⟩] g =
      [⟨some 1, "a".toList⟩, ⟨some 2, "b".toList⟩, ⟨some 3, []⟩] := by
  constructor
  · exact build_pair_example
  · rw [build_cons, build_cons, build_nil]
    have c1 : nextStartHead [(⟨some 2, some 3, "b".toList⟩ : Cue)] = some 2 := rfl
    have c2 : nextStartHead ([] : List Cue) = some sentinel := rfl
    rw [c1, c2, jsSub_some_some, jsSub_some_some, jsGt_some_some, jsGt_some_some]
    rw [if_neg (by rw [decide_eq_true_eq]; norm_num; linarith),
        if_pos (by rw [decide_eq_true_eq]; rw [sentinel]; norm_num; linarith)]
    simp

theorem C2_witness :
    0 < (1 / 10 : ℚ) ∧ (1 / 10 : ℚ) < 99996 ∧
    build [⟨some 1, some 2, "a".toList⟩, ⟨some 2, some 3, "b".toList⟩] (1 / 10) =
      [⟨some 1, "a".toList⟩, ⟨some 2, "b".toList⟩, ⟨some 3, []⟩] :=
  ⟨by norm_num, by norm_num,
   (C2_build_examples_amended (1 / 10) (by norm_num) (by norm_num)).2⟩

/-- C3 (as stated) is false on the code: an input of length at least 10
whose text contains no timing line parses to zero cues, and the click
handler silently succeeds with an empty keyframe list instead of reporting
`NoCuesFound`. -/
theorem C3_counterexample :
    parseSRT "no timestamps here" = [] ∧
    btnGenerate_onClick "no timestamps here" (1 / 24) = Except.ok [] := by
  have h : parseSRT "no timestamps here" = [] := by decide
  refine ⟨h, ?_⟩
  rw [btnGenerate_onClick, if_neg (by decide), h, build_nil]

/-- C3 amended: the code performs no zero-cue check.  Whenever the input
passes the only guard (`rawSRT.length < 10`) and parsing yields zero cues,
the handler returns an empty event list successfully; no run of the handler
ever reports `NoCuesFound`. -/
theorem C3_no_cues_silent_ok (raw : String) (g : ℚ) (h1 : 10 ≤ raw.length)
    (h2 : parseSRT raw = []) :
    btnGenerate_onClick raw g = Except.ok [] ∧
    ∀ (r : String) (q : ℚ), btnGenerate_onClick r q ≠ Except.error SpecError.noCuesFound := by
  constructor
  · rw [btnGenerate_onClick, if_neg (by omega), h2, build_nil]
  · intro r q
    rw [btnGenerate_onClick]
    by_cases hlen : r.length < 10
    · rw [if_pos hlen]
      simp
    · rw [if_neg hlen]
      simp

theorem C3_witness :
    10 ≤ ("no timestamps here" : String).length ∧
    parseSRT "no timestamps here" = [] ∧
    btnGenerate_onClick "no timestamps here" (1 / 24) = Except.ok [] :=
  ⟨by decide, by decide,
   (C3_no_cues_silent_ok "no timestamps here" (1 / 24) (by decide) (by decide)).1⟩

/-- C5: on every token `HH:MM:SS,mmm` or `HH:MM:SS.mmm`, `parseTime`
computes `H*3600 + M*60 + S.mmm` (exact rational arithmetic standing in for
the floating-point evaluation); in particular `parseTime "01:02:03,456" =
3723.456`, `parseTime "00:00:00,000" = 0`, and the empty token gives `0`. -/
theorem C5_parseTime_formula (H M S F : ℕ) (h1 : H < 100) (h2 : M < 100)
    (h3 : S < 100) (h4 : F < 1000) :
    parseTime (mkTimecodeL ',' H M S F) =
      some ((H : ℚ) * 3600 + (M : ℚ) * 60 + ((S : ℚ) + (F : ℚ) / 1000)) ∧
    parseTime (mkTimecodeL '.' H M S F) =
      some ((H : ℚ) * 3600 + (M : ℚ) * 60 + ((S : ℚ) + (F : ℚ) / 1000)) ∧
    parseTime "01:02:03,456".toList = some (3723456 / 1000) ∧
    parseTime "00:00:00,000".toList = some 0 ∧
    parseTime [] = some 0 := by
  refine ⟨?_, ?_, ?_, ?_, rfl⟩
  · rw [parseTime_mkTimecode (Or.inl rfl) h1 h2 h3 h4]
    rfl
  · rw [parseTime_mkTimecode (Or.inr rfl) h1 h2 h3 h4]
    rfl
  · have e : "01:02:03,456".toList = mkTimecodeL ',' 1 2 3 456 := by decide
    rw [e, parseTime_mkTimecode (Or.inl rfl) (by norm_num) (by norm_num) (by norm_num)
      (by norm_num)]
    norm_num [tcVal]
  · have e : "00:00:00,000".toList = mkTimecodeL ',' 0 0 0 0 := by decide
    rw [e, parseTime_mkTimecode (Or.inl rfl) (by norm_num) (by norm_num) (by norm_num)
      (by norm_num)]
    norm_num [tcVal]

theorem C5_witness :
    (1 : ℕ) < 100 ∧ (2 : ℕ) < 100 ∧ (3 : ℕ) < 100 ∧ (456 : ℕ) < 1000 ∧
    parseTime (mkTimecodeL ',' 1 2 3 456) =
      some ((1 : ℚ) * 3600 + (2 : ℚ) * 60 + ((3 : ℚ) + (456 : ℚ) / 1000)) :=
  ⟨by norm_num, by norm_num, by norm_num, by norm_num,
   (C5_parseTime_formula 1 2 3 456 (by norm_num) (by norm_num) (by norm_num) (by norm_num)).1⟩

theorem not_mem_mkTiming {sep1 sep2 w1 w2 : Char}
    (hs1 : sep1 = ',' ∨ sep1 = '.') (hs2 : sep2 = ',' ∨ sep2 = '.')
    {x : Char} (hx : x.isDigit = false) (hxc : x ≠ ':') (hxs1 : x ≠ sep1) (hxs2 : x ≠ sep2)
    (hxw1 : x ≠ w1) (hxw2 : x ≠ w2) (hxd : x ≠ '-') (hxg : x ≠ '>')
    {a b c d e f g h : ℕ} (h1 : a < 100) (h2 : b < 100) (h3 : c < 100) (h4 : d < 1000)
    (h5 : e < 100) (h6 : f < 100) (h7 : g < 100) (h8 : h < 1000) :
    x ∉ mkTimingL sep1 sep2 w1 w2 a b c d e f g h := by
  intro hmem
  rw [mkTimingL] at hmem
  rcases List.mem_append.mp hmem with hA | hB
  · rcases mem_mkTimecode h1 h2 h3 h4 hA with hh | hh | hh
    · rw [hh] at hx; cases hx
    · exact hxc hh
    · exact hxs1 hh
  · simp only [List.mem_cons] at hB
    rcases hB with hh | hh | hh | hh | hh | hh
    · exact hxw1 hh
    · exact hxd hh
    · exact hxd hh
    · exact hxg hh
    · exact hxw2 hh
    · rcases mem_mkTimecode h5 h6 h7 h8 hh with hh2 | hh2 | hh2
      · rw [hh2] at hx; cases hx
      · exact hxc hh2
      · exact hxs2 hh2

/-- C7 (as stated) is false on the code: the timing regex requires exactly
one whitespace character on each side of the arrow (`\s-->\s`), so a line
with no whitespace, or with two spaces, around the arrow is not classified
as a timing line and starts no cue. -/
theorem C7_counterexample :
    isTimingLine "00:00:01,000-->00:00:02,000".toList = false ∧
    isTimingLine "00:00:01,000  -->  00:00:02,000".toList = false ∧
    parseSRT "00:00:01,000-->00:00:02,000\nhello" = [] ∧
    parseSRT "00:00:01,000  -->  00:00:02,000\nhello" = [] := by
  refine ⟨by decide, by decide, by decide, by decide⟩

/-- C7 amended: a line of the form
`HH:MM:SS[,.]mmm<w1>--><w2>HH:MM:SS[,.]mmm` with exactly one whitespace
character on each side of the arrow is classified as a timing line and
starts a new cue-in-progress with `parseTime` of the two tokens (zero or
several whitespace characters around the arrow do not match). -/
theorem C7_single_space_arrow (sep1 sep2 w1 w2 : Char)
    (hs1 : sep1 = ',' ∨ sep1 = '.') (hs2 : sep2 = ',' ∨ sep2 = '.')
    (hw1 : isSpaceC w1 = true) (hw2 : isSpaceC w2 = true)
    (hn1 : w1 ≠ '\n') (hr1 : w1 ≠ '\r') (hn2 : w2 ≠ '\n') (hr2 : w2 ≠ '\r')
    (a b c d e f g h : ℕ) (h1 : a < 100) (h2 : b < 100) (h3 : c < 100) (h4 : d < 1000)
    (h5 : e < 100) (h6 : f < 100) (h7 : g < 100) (h8 : h < 1000) :
    isTimingLine (mkTimingL sep1 sep2 w1 w2 a b c d e f g h) = true ∧
    parseSRT (String.mk (mkTimingL sep1 sep2 w1 w2 a b c d e f g h)) =
      [{ start := some (tcVal a b c d), end_ := some (tcVal e f g h), text := [] }] := by
  refine ⟨isTimingLine_mkTiming hs1 hs2 hw1 hw2 h1 h2 h3 h4 h5 h6 h7 h8, ?_⟩
  have hj : joinLines [mkTimingL sep1 sep2 w1 w2 a b c d e f g h] =
      mkTimingL sep1 sep2 w1 w2 a b c d e f g h := by
    simp [joinLines]
  have hb : ∀ l ∈ [mkTimingL sep1 sep2 w1 w2 a b c d e f g h], '\n' ∉ l ∧ '\r' ∉ l := by
    intro l hl
    have : l = mkTimingL sep1 sep2 w1 w2 a b c d e f g h := by simpa using hl
    subst this
    constructor
    · exact not_mem_mkTiming hs1 hs2 (by decide)
        (by decide) (by rcases hs1 with rfl | rfl <;> decide)
        (by rcases hs2 with rfl | rfl <;> decide) (fun hq => hn1 hq.symm)
        (fun hq => hn2 hq.symm) (by decide) (by decide) h1 h2 h3 h4 h5 h6 h7 h8
    · exact not_mem_mkTiming hs1 hs2 (by decide)
        (by decide) (by rcases hs1 with rfl | rfl <;> decide)
        (by rcases hs2 with rfl | rfl <;> decide) (fun hq => hr1 hq.symm)
        (fun hq => hr2 hq.symm) (by decide) (by decide) h1 h2 h3 h4 h5 h6 h7 h8
  have step1 : parseSRT (String.mk (mkTimingL sep1 sep2 w1 w2 a b c d e f g h)) =
      parseLines [mkTimingL sep1 sep2 w1 w2 a b c d e f g h] none [] := by
    have hs := @parseSRT_joinLines [mkTimingL sep1 sep2 w1 w2 a b c d e f g h] (by simp) hb
    rw [hj] at hs
    exact hs
  rw [step1, parseLines_mkTiming hs1 hs2 hw1 hw2 h1 h2 h3 h4 h5 h6 h7 h8,
      parseLines_nil]
  rfl

theorem C7_witness :
    isTimingLine "00:00:01,000 --> 00:00:02,000".toList = true ∧
    parseSRT (String.mk "00:00:01,000 --> 00:00:02,000".toList) =
      [{ start := some (tcVal 0 0 1 0), end_ := some (tcVal 0 0 2 0), text := [] }] := by
  have e : "00:00:01,000 --> 00:00:02,000".toList = mkTimingL ',' ',' ' ' ' ' 0 0 1 0 0 0 2 0 := by
    decide
  rw [e]
  exact C7_single_space_arrow ',' ',' ' ' ' ' (Or.inl rfl) (Or.inl rfl) (by decide) (by decide)
    (by decide) (by decide) (by decide) (by decide) 0 0 1 0 0 0 2 0 (by norm_num) (by norm_num)
    (by norm_num) (by norm_num) (by norm_num) (by norm_num) (by norm_num) (by norm_num)

/-- C1 (as stated) is false on the code: on a document whose timing line
matches the coarse pattern but whose first timecode token has a non-numeric
prefix, the parse does not fail — it returns a cue list containing a cue
whose `start` is `NaN` (modelled `none`). -/
theorem C1_malformed_counterexample :
    parseSRT "ab01:02:03,456 --> 00:00:05,000\nhello" =
      [{ start := none, end_ := some 5, text := "hello".toList }] ∧
    parseSRT "ab01:02:03,456 --> 00:00:05,000\nhello" ≠ [] := by
  have hdoc : "ab01:02:03,456 --> 00:00:05,000\nhello" =
      String.mk (joinLines ["ab01:02:03,456 --> 00:00:05,000".toList, "hello".toList]) := by
    decide
  have hparse : parseSRT "ab01:02:03,456 --> 00:00:05,000\nhello" =
      [{ start := none, end_ := some 5, text := "hello".toList }] := by
    rw [hdoc, parseSRT_joinLines (by simp) (by decide)]
    have htr : trimJS "ab01:02:03,456 --> 00:00:05,000".toList =
        "ab01:02:03,456 --> 00:00:05,000".toList := by decide
    rw [parseLines_timing (by rw [htr]; decide)]
    rw [htr]
    have e0 : removeSpaces ((splitOnArrow "ab01:02:03,456 --> 00:00:05,000".toList).getD 0 []) =
        "ab01:02:03,456".toList := by decide
    have e1 : removeSpaces ((splitOnArrow "ab01:02:03,456 --> 00:00:05,000".toList).getD 1 []) =
        "00:00:05,000".toList := by decide
    rw [e0, e1]
    have p0 : parseTime "ab01:02:03,456".toList = none := by decide
    have p1 : parseTime "00:00:05,000".toList = some 5 := by
      have e : "00:00:05,000".toList = mkTimecodeL ',' 0 0 5 0 := by decide
      rw [e, parseTime_mkTimecode (Or.inl rfl) (by norm_num) (by norm_num) (by norm_num)
        (by norm_num)]
      norm_num [tcVal]
    rw [p0, p1]
    rw [parseLines_text (by decide) (by decide), parseLines_nil]
    have htr2 : trimJS "hello".toList = "hello".toList := by decide
    rw [htr2]
    rfl
  exact ⟨hparse, by rw [hparse]; simp⟩

/-- C1 amended: the parse never fails and nothing aborts it.  Every line
matching the coarse timing pattern (after trimming) starts a cue whose
`start`/`end` are whatever `parseTime` returns on the two arrow-split
tokens — `NaN` (`none`) when a component fails numeric parsing — and the
resulting cue list is returned in full. -/
theorem C1_no_abort (l : List Char) (h1 : isTimingLine l = true) (h2 : trimJS l = l)
    (h3 : '\n' ∉ l) (h4 : '\r' ∉ l) :
    parseSRT (String.mk l) =
      [{ start := parseTime (removeSpaces ((splitOnArrow l).getD 0 []))
       , end_ := parseTime (removeSpaces ((splitOnArrow l).getD 1 []))
       , text := [] }] := by
  have hj : joinLines [l] = l := by simp [joinLines]
  have step1 : parseSRT (String.mk l) = parseLines [l] none [] := by
    have hs := @parseSRT_joinLines [l] (by simp) (by
      intro x hx
      have : x = l := by simpa using hx
      subst this
      exact ⟨h3, h4⟩)
    rw [hj] at hs
    exact hs
  rw [step1, parseLines_timing (by rwa [h2]), h2, parseLines_nil]
  rfl

theorem C1_witness :
    isTimingLine "ab01:02:03,456 --> 00:00:05,000".toList = true ∧
    parseSRT (String.mk "ab01:02:03,456 --> 00:00:05,000".toList) =
      [{ start := parseTime (removeSpaces
            ((splitOnArrow "ab01:02:03,456 --> 00:00:05,000".toList).getD 0 []))
       , end_ := parseTime (removeSpaces
            ((splitOnArrow "ab01:02:03,456 --> 00:00:05,000".toList).getD 1 []))
       , text := [] }] :=
  ⟨by decide,
   C1_no_abort "ab01:02:03,456 --> 00:00:05,000".toList (by decide) (by decide)
     (by decide) (by decide)⟩

/-- C6 (as stated) is false on the code: `parseSRT` performs no validation
of `start ≤ end`, so a timing line `00:00:05,000 --> 00:00:01,000` yields a
cue with `start = 5 > end = 1`. -/
theorem C6_counterexample :
    ¬ (∀ c ∈ parseSRT "00:00:05,000 --> 00:00:01,000\nx",
        ∀ a b : ℚ, c.start = some a → c.end_ = some b → a ≤ b) := by
  intro hall
  have hp : parseSRT "00:00:05,000 --> 00:00:01,000\nx" =
      [{ start := some 5, end_ := some 1, text := "x".toList }] := by
    have hdoc : "00:00:05,000 --> 00:00:01,000\nx" =
        String.mk (joinLines [mkTimingL ',' ',' ' ' ' ' 0 0 5 0 0 0 1 0, "x".toList]) := by
      decide
    rw [hdoc, parseSRT_joinLines (by simp) (by decide)]
    rw [parseLines_mkTiming (Or.inl rfl) (Or.inl rfl) (by decide) (by decide) (by norm_num)
      (by norm_num) (by norm_num) (by norm_num) (by norm_num) (by norm_num) (by norm_num)
      (by norm_num)]
    rw [parseLines_text (by decide) (by decide), parseLines_nil]
    have htr : trimJS "x".toList = "x".toList := by decide
    rw [htr]
    have e5 : tcVal 0 0 5 0 = 5 := by norm_num [tcVal]
    have e1 : tcVal 0 0 1 0 = 1 := by norm_num [tcVal]
    rw [finalize]
    simp [e5, e1]
  rw [hp] at hall
  have h51 := hall { start := some 5, end_ := some 1, text := "x".toList } (by simp) 5 1 rfl rfl
  norm_num at h51

/-- C6 amended: `parseSRT` copies the two parsed times into the cue
verbatim and performs no `start ≤ end` validation: for every pair of
well-formed timecodes — including pairs with `start > end` — the block
parses to exactly the cue carrying those times and its text, passed through
as-is. -/
theorem C6_cues_passed_through (a b c d e f g h : ℕ) (h1 : a < 100) (h2 : b < 100)
    (h3 : c < 100) (h4 : d < 1000) (h5 : e < 100) (h6 : f < 100) (h7 : g < 100)
    (h8 : h < 1000) (t : List Char) (ht : wfTextLine t) :
    parseSRT (String.mk (joinLines [mkTimingL ',' ',' ' ' ' ' a b c d e f g h, t])) =
      [{ start := some (tcVal a b c d), end_ := some (tcVal e f g h), text := t }] := by
  obtain ⟨htn, htr, hti, hnl, hcr⟩ := ht
  rw [parseSRT_joinLines (by simp) (by
    intro l hl
    rcases List.mem_cons.mp hl with rfl | hl
    · exact ⟨(not_mem_mkTiming (Or.inl rfl) (Or.inl rfl) (by decide) (by decide) (by decide)
          (by decide) (by decide) (by decide) (by decide) (by decide) h1 h2 h3 h4 h5 h6 h7 h8),
        (not_mem_mkTiming (Or.inl rfl) (Or.inl rfl) (by decide) (by decide) (by decide)
          (by decide) (by decide) (by decide) (by decide) (by decide) h1 h2 h3 h4 h5 h6 h7 h8)⟩
    · have : l = t := by simpa using hl
      subst this
      exact ⟨hnl, hcr⟩)]
  rw [parseLines_mkTiming (Or.inl rfl) (Or.inl rfl) (by decide) (by decide)
    h1 h2 h3 h4 h5 h6 h7 h8]
  rw [parseLines_text (by rwa [htr]) (by rwa [htr]), parseLines_nil, htr]
  rfl

theorem C6_witness :
    wfTextLine "x".toList ∧
    parseSRT (String.mk (joinLines [mkTimingL ',' ',' ' ' ' ' 0 0 5 0 0 0 1 0, "x".toList])) =
      [{ start := some (tcVal 0 0 5 0), end_ := some (tcVal 0 0 1 0), text := "x".toList }] :=
  ⟨⟨by decide, by decide, by decide, by decide, by decide⟩,
   C6_cues_passed_through 0 0 5 0 0 0 1 0 (by norm_num) (by norm_num) (by norm_num)
     (by norm_num) (by norm_num) (by norm_num) (by norm_num) (by norm_num) "x".toList
     ⟨by decide, by decide, by decide, by decide, by decide⟩⟩

/-- C8: a document of `K` well-formed blocks (index line, timing line, text
lines, blank line) parses to exactly `K` cues, in block order, each with
its block's start/end/text (the index line never reaching any text); and
the same holds when the final blank line after the last block is missing —
the last cue is still produced. -/
theorem C8_blocks_roundtrip (bs : List Block) (B : Block) (hbs : ∀ b ∈ bs, wfBlock b)
    (hB : wfBlock B) :
    parseSRT (String.mk (joinLines ((bs ++ [B]).flatMap blockLines))) =
      (bs ++ [B]).map cueOf ∧
    parseSRT (String.mk (joinLines (bs.flatMap blockLines ++ blockLinesNoBlank B))) =
      (bs ++ [B]).map cueOf := by
  have hall : ∀ b ∈ bs ++ [B], wfBlock b := by
    intro x hx
    rcases List.mem_append.mp hx with hx | hx
    · exact hbs x hx
    · have : x = B := by simpa using hx
      subst this
      exact hB
  constructor
  · have hne : (bs ++ [B]).flatMap blockLines ≠ [] := by
      rw [List.flatMap_append]
      intro hcontra
      rcases List.append_eq_nil.mp hcontra with ⟨-, hr⟩
      simp [blockLines] at hr
    have hbad : ∀ l ∈ (bs ++ [B]).flatMap blockLines, '\n' ∉ l ∧ '\r' ∉ l := by
      intro l hl
      rw [List.mem_flatMap] at hl
      obtain ⟨b, hb, hlb⟩ := hl
      exact no_badchar_blockLines (hall b hb) l hlb
    rw [parseSRT_joinLines hne hbad]
    have hmain := @parseLines_blocks (bs ++ [B]) hall [] []
    rw [List.append_nil] at hmain
    rw [hmain, parseLines_nil]
    simp [finalize]
  · have hne : bs.flatMap blockLines ++ blockLinesNoBlank B ≠ [] := by
      intro hcontra
      rcases List.append_eq_nil.mp hcontra with ⟨-, hr⟩
      simp [blockLinesNoBlank] at hr
    have hbad : ∀ l ∈ bs.flatMap blockLines ++ blockLinesNoBlank B, '\n' ∉ l ∧ '\r' ∉ l := by
      intro l hl
      rcases List.mem_append.mp hl with hl | hl
      · rw [List.mem_flatMap] at hl
        obtain ⟨b, hb, hlb⟩ := hl
        exact no_badchar_blockLines (hbs b hb) l hlb
      · exact no_badchar_blockLinesNoBlank hB l hl
    rw [parseSRT_joinLines hne hbad, parseLines_blocks hbs,
        parseLines_blockNoBlank hB]
    simp

theorem C8_witness :
    wfBlock (⟨"1".toList, 0, 0, 1, 0, 0, 0, 2, 0, ["hello".toList]⟩ : Block) ∧
    parseSRT (String.mk (joinLines (([] ++
        [(⟨"1".toList, 0, 0, 1, 0, 0, 0, 2, 0, ["hello".toList]⟩ : Block)]).flatMap
        blockLines))) =
      ([] ++ [(⟨"1".toList, 0, 0, 1, 0, 0, 0, 2, 0, ["hello".toList]⟩ : Block)]).map cueOf := by
  have hwf : wfBlock (⟨"1".toList, 0, 0, 1, 0, 0, 0, 2, 0, ["hello".toList]⟩ : Block) := by
    refine ⟨by decide, by norm_num, by norm_num, by norm_num, by norm_num, by norm_num,
      by norm_num, by norm_num, by norm_num, ?_⟩
    intro t ht
    have : t = "hello".toList := by simpa using ht
    subst this
    exact ⟨by decide, by decide, by decide, by decide, by decide⟩
  exact ⟨hwf,
    (C8_blocks_roundtrip [] (⟨"1".toList, 0, 0, 1, 0, 0, 0, 2, 0, ["hello".toList]⟩ : Block)
      (by intro b hb; cases hb) hwf).1⟩

/-- C9: a line composed entirely of digits occurring after a timing line
(while a cue is in progress) is appended to that cue's text rather than
discarded as an index; the same all-digit line with no cue in progress is
discarded as an index line and yields no cue. -/
theorem C9_digit_text_line (d : List Char) (hne : d ≠ [])
    (hdig : ∀ c ∈ d, c.isDigit = true) :
    parseSRT (String.mk (joinLines [mkTimingL ',' ',' ' ' ' ' 0 0 1 0 0 0 2 0, d])) =
      [{ start := some (tcVal 0 0 1 0), end_ := some (tcVal 0 0 2 0), text := d }] ∧
    parseSRT (String.mk d) = [] := by
  have htr : trimJS d = d := trimJS_digits hdig
  have hnl : '\n' ∉ d := fun hm => absurd (hdig _ hm) (by decide)
  have hcr : '\r' ∉ d := fun hm => absurd (hdig _ hm) (by decide)
  constructor
  · rw [parseSRT_joinLines (by simp) (by
      intro l hl
      rcases List.mem_cons.mp hl with rfl | hl
      · exact ⟨not_mem_mkTiming (Or.inl rfl) (Or.inl rfl) (by decide) (by decide) (by decide)
            (by decide) (by decide) (by decide) (by decide) (by decide) (by norm_num)
            (by norm_num) (by norm_num) (by norm_num) (by norm_num) (by norm_num) (by norm_num)
            (by norm_num),
          not_mem_mkTiming (Or.inl rfl) (Or.inl rfl) (by decide) (by decide) (by decide)
            (by decide) (by decide) (by decide) (by decide) (by decide) (by norm_num)
            (by norm_num) (by norm_num) (by norm_num) (by norm_num) (by norm_num) (by norm_num)
            (by norm_num)⟩
      · have : l = d := by simpa using hl
        subst this
        exact ⟨hnl, hcr⟩)]
    rw [parseLines_mkTiming (Or.inl rfl) (Or.inl rfl) (by decide) (by decide) (by norm_num)
      (by norm_num) (by norm_num) (by norm_num) (by norm_num) (by norm_num) (by norm_num)
      (by norm_num)]
    rw [parseLines_text (by rw [htr]; exact isTimingLine_of_digits hdig) (by rwa [htr]),
        parseLines_nil, htr]
    rfl
  · have hj : joinLines [d] = d := by simp [joinLines]
    have step1 : parseSRT (String.mk d) = parseLines [d] none [] := by
      have hs := @parseSRT_joinLines [d] (by simp) (by
        intro x hx
        have : x = d := by simpa using hx
        subst this
        exact ⟨hnl, hcr⟩)
      rw [hj] at hs
      exact hs
    have hidx : isIndexLine d = true := by
      rw [isIndexLine]
      simp [hne, List.all_eq_true.mpr hdig]
    rw [step1, parseLines_index hidx, parseLines_nil]
    rfl

theorem C9_witness :
    "123".toList ≠ [] ∧ (∀ c ∈ "123".toList, c.isDigit = true) ∧
    parseSRT (String.mk (joinLines
        [mkTimingL ',' ',' ' ' ' ' 0 0 1 0 0 0 2 0, "123".toList])) =
      [{ start := some (tcVal 0 0 1 0), end_ := some (tcVal 0 0 2 0)
       , text := "123".toList }] ∧
    parseSRT (String.mk "123".toList) = [] := by
  have h := C9_digit_text_line "123".toList (by decide) (by decide)
  exact ⟨by decide, by decide, h.1, h.2⟩

/-- C10: each source line is trimmed before classification — a text line
with surrounding blanks is stored trimmed, a nonempty whitespace-only line
acts as a blank line and finalizes the cue in progress (a later text line
no longer belongs to any cue) — and consecutive text lines are joined with
a single carriage return, the first line carrying no leading separator. -/
theorem C10_trim_and_join (t1 t2 t3 w : List Char)
    (h1 : wfTextLine t1) (h2 : wfTextLine t2) (h3 : wfTextLine t3) (hw : w ≠ [])
    (hws : ∀ c ∈ w, isSpaceC c = true ∧ c ≠ '\n' ∧ c ≠ '\r') :
    parseSRT (String.mk (joinLines
      [mkTimingL ',' ',' ' ' ' ' 0 0 1 0 0 0 2 0, ' ' :: (t1 ++ [' ']), t2, w, t3])) =
      [{ start := some (tcVal 0 0 1 0), end_ := some (tcVal 0 0 2 0)
       , text := t1 ++ '\r' :: t2 }] := by
  obtain ⟨h1n, h1t, h1i, h1nl, h1cr⟩ := h1
  obtain ⟨h2n, h2t, h2i, h2nl, h2cr⟩ := h2
  obtain ⟨h3n, h3t, h3i, h3nl, h3cr⟩ := h3
  have htp : trimJS (' ' :: (t1 ++ [' '])) = t1 := trimJS_pad h1t
  rw [parseSRT_joinLines (by simp) (by
    intro l hl
    rcases List.mem_cons.mp hl with rfl | hl
    · exact ⟨not_mem_mkTiming (Or.inl rfl) (Or.inl rfl) (by decide) (by decide) (by decide)
          (by decide) (by decide) (by decide) (by decide) (by decide) (by norm_num)
          (by norm_num) (by norm_num) (by norm_num) (by norm_num) (by norm_num) (by norm_num)
          (by norm_num),
        not_mem_mkTiming (Or.inl rfl) (Or.inl rfl) (by decide) (by decide) (by decide)
          (by decide) (by decide) (by decide) (by decide) (by decide) (by norm_num)
          (by norm_num) (by norm_num) (by norm_num) (by norm_num) (by norm_num) (by norm_num)
          (by norm_num)⟩
    rcases List.mem_cons.mp hl with rfl | hl
    · constructor
      · intro hm
        rcases List.mem_cons.mp hm with hm | hm
        · exact absurd hm (by decide)
        · rcases List.mem_append.mp hm with hm | hm
          · exact h1nl hm
          · have he : '\n' = ' ' := by simpa using hm
            exact absurd he (by decide)
      · intro hm
        rcases List.mem_cons.mp hm with hm | hm
        · exact absurd hm (by decide)
        · rcases List.mem_append.mp hm with hm | hm
          · exact h1cr hm
          · have he : '\r' = ' ' := by simpa using hm
            exact absurd he (by decide)
    rcases List.mem_cons.mp hl with rfl | hl
    · exact ⟨h2nl, h2cr⟩
    rcases List.mem_cons.mp hl with rfl | hl
    · exact ⟨fun hm => (hws _ hm).2.1 rfl, fun hm => (hws _ hm).2.2 rfl⟩
    · have : l = t3 := by simpa using hl
      subst this
      exact ⟨h3nl, h3cr⟩)]
  rw [parseLines_mkTiming (Or.inl rfl) (Or.inl rfl) (by decide) (by decide) (by norm_num)
    (by norm_num) (by norm_num) (by norm_num) (by norm_num) (by norm_num) (by norm_num)
    (by norm_num)]
  rw [parseLines_text (by rw [htp]; exact h1i) (by rw [htp]; exact h1n)]
  rw [parseLines_text (by rw [h2t]; exact h2i) (by rw [h2t]; exact h2n)]
  rw [parseLines_blank (trimJS_all_space (fun c hc => (hws c hc).1))]
  rw [parseLines_skip (by rw [h3t]; exact h3i), parseLines_nil]
  rw [htp, h2t]
  simp only [finalize, List.nil_append]
  have hie : (([] : List Char) ++ t1).isEmpty = false := by
    simp [List.isEmpty_iff, h1n]
  simp [hie, h1n]

theorem C10_witness :
    wfTextLine "ab".toList ∧ wfTextLine "cd".toList ∧ wfTextLine "ef".toList ∧
    ([' ', '\t'] : List Char) ≠ [] ∧
    parseSRT (String.mk (joinLines
      [mkTimingL ',' ',' ' ' ' ' 0 0 1 0 0 0 2 0, ' ' :: ("ab".toList ++ [' ']),
       "cd".toList, [' ', '\t'], "ef".toList])) =
      [{ start := some (tcVal 0 0 1 0), end_ := some (tcVal 0 0 2 0)
       , text := "ab".toList ++ '\r' :: "cd".toList }] :=
  ⟨⟨by decide, by decide, by decide, by decide, by decide⟩,
   ⟨by decide, by decide, by decide, by decide, by decide⟩,
   ⟨by decide, by decide, by decide, by decide, by decide⟩,
   by decide,
   C10_trim_and_join "ab".toList "cd".toList "ef".toList [' ', '\t']
     ⟨by decide, by decide, by decide, by decide, by decide⟩
     ⟨by decide, by decide, by decide, by decide, by decide⟩
     ⟨by decide, by decide, by decide, by decide, by decide⟩
     (by decide) (by decide)⟩
